import Mathlib

/-!
Verification of the SBOM generation core of the npm `sbom` command.

The source under scrutiny is `src/lib/utils/sbom-spdx.js`, which contains two
concatenated modules:

* the SPDX document builder (`spdxOutput`, `toSpdxItem`, `toSpdxRelationship`,
  `toSpdxID`, `isGitNode`), and
* the `SBOM` command (`exec`), which walks the dependency tree breadth-first
  with `treeverse.breadth`, collecting visited nodes and structural errors
  (`getChildren`, `mapEdgesToNodes`, `filterByEdgesTypes`,
  `filterBySelectedWorkspaces`, `appendExtraneousChildren`,
  `sortAlphabetically`, `findErrors`).

Modelling conventions, stated once here:

* Arborist node objects are modelled by the structure `PNode`; a node is
  identified by its filesystem `path`, which Arborist keeps unique per node
  object, so object references (`edge.to`, `node.children` entries) are
  modelled as paths resolved through `nodeAt`.  `node.target` (link
  resolution) is modelled as the node itself; links are not needed by any of
  the properties proved here, and `edge.from` is therefore the node whose
  `edgesOut` is being iterated.
* External libraries are black boxes per the specification (§1): they enter
  as function-valued fields of `Cfg` (`normalize` for
  `normalize-package-data`, `toPurl`/`npaType`/`escapedName` for
  `npm-package-arg`, `ssriParse` for `ssri`, `le` for the
  `@isaacs/string-locale-compare` comparator).  `uuid.v4()` and
  `new Date().toISOString()` are the `uuid`/`now` arguments of the builder.
* JavaScript truthiness on strings (empty string is falsy) is modelled
  explicitly by `jsOr`/`jsOrU`; `undefined` becomes `Option.none`.
* The run-scoped symbol annotations `[_missing]`, `[_invalid]`, `[_type]`
  that the command attaches to node objects are modelled as a separate
  annotation map (`AnnMap`) for real nodes, and as constructor fields of the
  synthesized placeholder (`Child.ghost`) for missing nodes, mirroring when
  the code writes and reads each of them.
* `treeverse.breadth` is modelled as a FIFO queue with a `seen` set
  consulted at enqueue time; `visit` runs before child expansion.  The
  traversal is driven by fuel (`travFuel`), and we prove that this fuel
  always drains the queue, so the fuelled run is the run.
* `console.error(node.package.license)` in `toSpdxItem` writes a debug line
  to stderr; it reads but does not modify any data and is not modelled.
-/

/-! ## JavaScript-flavoured helpers -/

/-- `a || b` for a possibly-undefined string against a string default:
an absent or empty (falsy) string picks the default. -/
def jsOr : Option String → String → String
  | some s, d => if s = "" then d else s
  | none, d => d

/-- `s || undefined`: an absent or empty string collapses to `undefined`. -/
def jsOrU : Option String → Option String
  | some s => if s = "" then none else some s
  | none => none

/-- `String.prototype.toUpperCase`, modelled character-wise (the values it is
applied to in this code are ASCII: package types, integrity algorithm names). -/
def jsToUpper (s : String) : String := String.mk (s.data.map Char.toUpper)

/-- `os.EOL` on the platforms the traversal's error message is joined for. -/
def EOL : String := "\n"

/-- `Array.prototype.join(EOL)` over the collected error lines. -/
def joinEOL : List String → String
  | [] => ""
  | [x] => x
  | x :: xs => x ++ (EOL ++ joinEOL xs)

/-- `errors.add(line)` over a JavaScript `Set`: insert each rendered line,
keeping insertion order and dropping lines already present. -/
def errSetAdd (acc : List String) (lines : List String) : List String :=
  lines.foldl (fun a l => if l ∈ a then a else a ++ [l]) acc

/-- `s` contains `sub` as a substring (the sense in which an aggregated
failure message "contains" a package identifier). -/
def ContainsStr (s sub : String) : Prop := List.IsInfix sub.data s.data

instance (s sub : String) : Decidable (ContainsStr s sub) := by
  unfold ContainsStr; infer_instance

/-! ## Data model: package metadata, edges, nodes, graphs -/

/-- The fields of `node.package` that this code reads, plus the `_id` field
that `normalize-package-data` documents as generated (`name@version`).
Lifecycle note: the builder passes this object to the external normalizer
in place. -/
structure Pkg where
  pname : String
  pversion : String
  description : Option String
  homepage : Option String
  license : Option String
  generatedId : Option String
deriving DecidableEq

/-- An Arborist `Edge`.  `etype` is `edge.type`
(`prod | dev | peer | optional | peerOptional | workspace`), `to` the target
node's path when resolved. -/
structure Edge where
  ename : String
  espec : String
  etype : String
  eto : Option String
  missing : Bool
  invalid : Bool
  optional : Bool
deriving DecidableEq

/-- An Arborist `Node` as consumed by this code. `children` holds the paths
of the values of the node's `children` map. -/
structure PNode where
  path : String
  pkgid : String
  nname : String
  version : String
  location : String
  resolved : Option String
  integrity : Option String
  isRoot : Bool
  isLink : Bool
  isWorkspace : Bool
  isProjectRoot : Bool
  extraneous : Bool
  package : Pkg
  edgesOut : List Edge
  children : List String
deriving DecidableEq

/-- The dependency tree handed over by Arborist: its nodes and the path of
the tree root that `exec` starts the traversal at. -/
structure Graph where
  nodes : List PNode
  rootPath : String
deriving DecidableEq

/-- Resolve an object reference (a path) to its node. -/
def nodeAt (g : Graph) (p : String) : Option PNode :=
  g.nodes.find? (fun n => n.path == p)

/-- One edge's share of the well-formedness Arborist guarantees: a resolved
target reference actually exists, and an unresolved target only occurs on an
edge flagged missing or optional (otherwise `mapEdgesToNodes` would
dereference `undefined` and throw a `TypeError`). -/
def edgeWFb (g : Graph) (e : Edge) : Bool :=
  match e.eto with
  | some p => (nodeAt g p).isSome
  | none => e.missing || e.optional

/-- Well-formedness of the resolver-supplied graph: node paths are unique
(Arborist keys node objects by path), and every object reference resolves. -/
def WFGraph (g : Graph) : Prop :=
  (g.nodes.map (·.path)).Nodup
  ∧ (∀ n ∈ g.nodes, ∀ e ∈ n.edgesOut, edgeWFb g e = true)
  ∧ (∀ n ∈ g.nodes, ∀ cp ∈ n.children, (nodeAt g cp).isSome = true)

instance (g : Graph) : Decidable (WFGraph g) := by
  unfold WFGraph; infer_instance

/-- No edge of the graph is missing, invalid, or unresolved (the premise of
the determinism property). -/
def cleanEdges (g : Graph) : Prop :=
  ∀ n ∈ g.nodes, ∀ e ∈ n.edgesOut,
    e.missing = false ∧ e.invalid = false ∧ e.eto.isSome = true

instance (g : Graph) : Decidable (cleanEdges g) := by
  unfold cleanEdges; infer_instance

/-- The node at the traversal start carries the `isRoot` flag (Arborist sets
it on the tree root). -/
def rootFlagged (g : Graph) : Bool :=
  match nodeAt g g.rootPath with
  | some r => r.isRoot
  | none => false

/-- The caller-supplied configuration together with the external collaborators
(spec §1: resolver-adjacent libraries are black boxes consumed as-is). -/
structure Cfg where
  /-- the `omit` flat option (`omit` is a Lean keyword, hence the name). -/
  omitTypes : List String
  workspacesEnabled : Bool
  wsNodes : List String
  packageType : Option String
  npmVersion : String
  /-- `normalize-package-data`: mutates the package object handed to it. -/
  normalize : Pkg → Pkg
  /-- `npa.toPurl`. -/
  toPurl : String → String
  /-- `npa(spec).type`, `none` when `npa` throws. -/
  npaType : String → Option String
  /-- `npa(id).escapedName`. -/
  escapedName : String → String
  /-- `ssri.parse(integrity, { single: true })`: algorithm and hex digest. -/
  ssriParse : String → String × String
  /-- the `@isaacs/string-locale-compare` comparator order. -/
  le : String → String → Bool

/-! ## The SPDX builder (`sbom-spdx.js`) -/

def SPDX_SCHEMA_VERSION : String := "SPDX-2.3"
def SPDX_DATA_LICENSE : String := "CC0-1.0"
def SPDX_IDENTIFER : String := "SPDXRef-DOCUMENT"

/-- The document-local name computed inside `toSpdxID`:
`name.replace(/^@/, '')` (strip one leading scope marker), then
`name.replace(/\//g, '.')`, then `name.replace(/@/g, '-')`.  Each regex is a
global single-character substitution, modelled as a map over the characters. -/
def spdxLocalName (id : String) : String :=
  let stripped : List Char :=
    match id.data with
    | '@' :: rest => rest
    | cs => cs
  let slashes := stripped.map (fun c => if c = '/' then '.' else c)
  let ats := slashes.map (fun c => if c = '@' then '-' else c)
  String.mk ats

/-- `toSpdxID`: the document-local SPDX identifier of a package identifier. -/
def toSpdxID (id : String) : String := "SPDXRef-Package-" ++ spdxLocalName id

structure SpdxExternalRef where
  referenceCategory : String
  referenceType : String
  referenceLocator : String
deriving DecidableEq

structure SpdxChecksum where
  algorithm : String
  checksumValue : String
deriving DecidableEq

structure SpdxPackage where
  sname : String
  SPDXID : String
  versionInfo : String
  packageFileName : String
  description : Option String
  primaryPackagePurpose : Option String
  downloadLocation : String
  filesAnalyzed : Bool
  homePage : String
  licenseDeclared : String
  externalRefs : List SpdxExternalRef
  checksums : Option (List SpdxChecksum)
deriving DecidableEq

structure SpdxRelationship where
  spdxElementId : String
  relatedSpdxElement : String
  relationshipType : String
deriving DecidableEq

structure SpdxCreationInfo where
  created : String
  creators : List String
deriving DecidableEq

structure SpdxBom where
  spdxVersion : String
  dataLicense : String
  SPDXID : String
  bname : String
  documentNamespace : String
  creationInfo : SpdxCreationInfo
  documentDescribes : List String
  packages : List SpdxPackage
  relationships : List SpdxRelationship
deriving DecidableEq

/-- `isGitNode`: whether the resolved locator parses as a git or hosted git
spec (falsy `resolved`, or an `npa` throw, yields false). -/
def isGitNode (cfg : Cfg) (node : PNode) : Bool :=
  match node.resolved with
  | none => false
  | some r =>
    if r = "" then false
    else
      match cfg.npaType r with
      | some t => t == "git" || t == "hosted"
      | none => false

/-- `toSpdxItem(node, { packageType })`.  The JavaScript first runs
`normalizeData(node.package)`, an in-place mutation of the node's package
metadata; the returned pair is the SPDX package record together with the node
as it stands after that mutation. -/
def toSpdxItem (cfg : Cfg) (node : PNode) (packageType : Option String) :
    SpdxPackage × PNode :=
  let pkg := cfg.normalize node.package
  let node' := { node with package := pkg }
  let id := node.pkgid
  let item : SpdxPackage :=
    { sname := node.nname
      SPDXID := toSpdxID id
      versionInfo := node.version
      packageFileName := node.location
      description := jsOrU pkg.description
      primaryPackagePurpose :=
        match packageType with
        | some pt => if pt = "" then none else some (jsToUpper pt)
        | none => none
      downloadLocation := jsOr (if node.isLink then none else node.resolved) "NOASSERTION"
      filesAnalyzed := false
      homePage := jsOr pkg.homepage "NOASSERTION"
      licenseDeclared := jsOr pkg.license "NOASSERTION"
      externalRefs :=
        [ { referenceCategory := "PACKAGE-MANAGER", referenceType := "npm",
            referenceLocator := id },
          { referenceCategory := "PACKAGE-MANAGER", referenceType := "purl",
            referenceLocator :=
              cfg.toPurl id ++
                (if isGitNode cfg node then "?vcs_url=" ++ node.resolved.getD "" else "") } ]
      checksums :=
        match node.integrity with
        | some i =>
          if i = "" then none
          else
            some [ { algorithm := jsToUpper (cfg.ssriParse i).1,
                     checksumValue := (cfg.ssriParse i).2 } ]
        | none => none }
  (item, node')

/-- The pkgid of the node object referenced by a path (`edge.to.pkgid`). -/
def pkgidAtPath (g : Graph) (p : String) : String :=
  ((nodeAt g p).map (·.pkgid)).getD ""

/-- The builder's per-edge filter
`nodes.find(n => n.pkgid === edge.to?.pkgid)`: an unresolved target never
matches (its pkgid is `undefined`), a resolved one matches by pkgid. -/
def edgeTargetIncluded (g : Graph) (nodes : List PNode) (e : Edge) : Bool :=
  match e.eto with
  | none => false
  | some p => nodes.any (fun n => n.pkgid == pkgidAtPath g p)

/-- `toSpdxRelationship(node, edge)`: `null` for an unresolved target,
otherwise a relationship record whose type is the `switch` on `edge.type`. -/
def toSpdxRelationship (g : Graph) (node : PNode) (e : Edge) :
    Option SpdxRelationship :=
  match e.eto with
  | none => none
  | some p =>
    some { spdxElementId := toSpdxID node.pkgid
           relatedSpdxElement := toSpdxID (pkgidAtPath g p)
           relationshipType :=
             if e.etype == "peer" then "HAS_PREREQUISITE"
             else if e.etype == "optional" then "OPTIONAL_DEPENDENCY_OF"
             else if e.etype == "dev" then "DEV_DEPENDENCY_OF"
             else "DEPENDS_ON" }

/-- `spdxOutput({ npm, nodes, packageType })`.  Returns `none` when no node
carries the root flag (the JavaScript would throw reading
`rootNode.pkgid` of `undefined`).  The second component records the node
objects after the in-place `normalizeData` mutation performed by
`toSpdxItem` — root first, then the non-root nodes, the order in which the
builder touches them.  Note `childNodes.map(toSpdxItem)` passes the array
index as the second argument; destructuring `{ packageType }` from a number
yields `undefined`, hence `none` for every non-root node. -/
def spdxOutputFull (g : Graph) (cfg : Cfg) (uuid now : String)
    (nodes : List PNode) : Option (SpdxBom × List PNode) :=
  match nodes.find? (·.isRoot) with
  | none => none
  | some rootNode =>
    let childNodes := nodes.filter (fun n => !n.isRoot)
    let rootID := rootNode.pkgid
    let ns := "http://spdx.org/spdxdocs/" ++ cfg.escapedName rootID ++ "-"
                ++ rootNode.version ++ "-" ++ uuid
    let relationships :=
      (nodes.map (fun node =>
        (node.edgesOut.filter (edgeTargetIncluded g nodes)).filterMap
          (toSpdxRelationship g node))).flatten
    let rootItem := toSpdxItem cfg rootNode cfg.packageType
    let childItems := childNodes.map (fun n => toSpdxItem cfg n none)
    let bom : SpdxBom :=
      { spdxVersion := SPDX_SCHEMA_VERSION
        dataLicense := SPDX_DATA_LICENSE
        SPDXID := SPDX_IDENTIFER
        bname := rootID
        documentNamespace := ns
        creationInfo := { created := now,
                          creators := ["Tool: npm/cli-" ++ cfg.npmVersion] }
        documentDescribes := [toSpdxID rootID]
        packages := rootItem.1 :: childItems.map (·.1)
        relationships :=
          { spdxElementId := SPDX_IDENTIFER
            relatedSpdxElement := toSpdxID rootID
            relationshipType := "DESCRIBES" } :: relationships }
    some (bom, rootItem.2 :: childItems.map (·.2))

/-! ## Specification-side predicates (used to state document invariants) -/

/-- Spec §3 invariant, stated from the spec's words: every relationship's
source is either the document element or a package identifier present in the
package list, and every target is a package identifier present in the
package list. -/
def specReferentialIntegrity (bom : SpdxBom) : Bool :=
  bom.relationships.all (fun rel =>
    (rel.spdxElementId == SPDX_IDENTIFER
      || (bom.packages.map (·.SPDXID)).contains rel.spdxElementId)
    && (bom.packages.map (·.SPDXID)).contains rel.relatedSpdxElement)

/-- Spec §3 invariant, stated from the spec's words: the document has exactly
one DESCRIBES relationship, from the document element to the given root
package identifier. -/
def specDescribesOnce (bom : SpdxBom) (rootId : String) : Bool :=
  bom.relationships.filter (fun rel => rel.relationshipType == "DESCRIBES")
    == [{ spdxElementId := SPDX_IDENTIFER, relatedSpdxElement := rootId,
          relationshipType := "DESCRIBES" }]

/-! ## The traversal (`sbom.js` `exec` and its helpers) -/

/-- The run-scoped annotations `[_invalid]` and `[_type]` as attached to a
real node object (`[_missing]` is only ever attached to a synthesized
placeholder, never to a real node). -/
structure Ann where
  invalid : Bool
  etype : Option String
deriving DecidableEq

/-- Annotation state of the real node objects, keyed by path.  Writing
shadows: a fresh entry is consed on and lookups take the newest, matching
the in-place overwrite (`node[_type] = edge.type`, last write wins). -/
abbrev AnnMap := List (String × Ann)

def annGet (ann : AnnMap) (p : String) : Ann :=
  ((List.find? (fun pa => pa.1 == p) ann).map (·.2)).getD ⟨false, none⟩

def annSet (ann : AnnMap) (p : String) (a : Ann) : AnnMap := (p, a) :: ann

/-- A child produced by `getChildren` (and hence an element of the traversal
queue): either a real node object (by path) or the placeholder object that
`mapEdgesToNodes` synthesizes for a missing dependency, carrying the fields
the code sets on it (`name`, `pkgid`, `[_missing]`, `[_invalid]`,
`[_type]`). -/
inductive Child where
  | real (path : String)
  | ghost (gname gpkgid reqBy : String) (invalid : Bool) (etype : String)
deriving DecidableEq

/-- What `findErrors` reads off the node object it visits: pkgid, the path
as rendered into the invalid line (`undefined` for a placeholder), and the
three annotations. -/
structure VisitView where
  pkgid : String
  pathDisplay : String
  missingReq : Option String
  invalid : Bool
  etype : Option String

/-- `findErrors(node)`: a missing line when `node[_missing]` is truthy and
the recorded edge type is not optional/peerOptional, then an invalid line
when `node[_invalid]` is set. -/
def findErrors (v : VisitView) : List String :=
  (match v.missingReq with
   | some reqBy =>
     if reqBy = "" then []
     else if v.etype = some "optional" ∨ v.etype = some "peerOptional" then []
     else ["missing: " ++ v.pkgid ++ ", required by " ++ reqBy]
   | none => [])
  ++ (if v.invalid then ["invalid: " ++ v.pkgid ++ " " ++ v.pathDisplay] else [])

/-- The missing-dependency error line for an edge (the placeholder's pkgid is
`` `${name}@${spec}` `` and `[_missing]` holds `edge.from.pkgid`). -/
def missingLine (e : Edge) (parentPkgid : String) : String :=
  "missing: " ++ (e.ename ++ "@" ++ e.espec) ++ ", required by " ++ parentPkgid

/-- The placeholder `mapEdgesToNodes` synthesizes for a missing edge of
`parent`. -/
def ghostOf (e : Edge) (parent : PNode) : Child :=
  .ghost e.ename (e.ename ++ "@" ++ e.espec) parent.pkgid e.invalid e.etype

/-- `filterBySelectedWorkspaces({ workspacesEnabled, wsNodes })`.  `parent`
is the node whose `edgesOut` is iterated (`edge.from`).  When
`workspacesEnabled` is false and the edge leaves the project root, the
JavaScript dereferences `edge.to.isWorkspace` without a guard — for an
unresolved target that throws; we render the read as `false`, which is only
reachable when `workspacesEnabled = false`, a configuration outside every
property proved below. -/
def filterBySelectedWorkspaces (g : Graph) (cfg : Cfg) (parent : PNode)
    (e : Edge) : Bool :=
  if !cfg.workspacesEnabled && parent.isProjectRoot
      && (((e.eto.bind (nodeAt g)).map (·.isWorkspace)).getD false) then
    false
  else if cfg.wsNodes.isEmpty then
    true
  else if parent.isProjectRoot then
    (((e.eto.bind (nodeAt g)).map
        (fun t => t.isWorkspace && cfg.wsNodes.contains t.path)).getD false)
  else
    true

/-- `filterByEdgesTypes({ omit })`: `!omit.includes(edge.type)`. -/
def filterByEdgesTypes (cfg : Cfg) (e : Edge) : Bool :=
  !cfg.omitTypes.contains e.etype

/-- Accumulator of the `.map(mapEdgesToNodes({ seenPaths }))` pass: the
children produced so far, the annotation state of the real node objects, and
the local `seenPaths` set. -/
structure MapAcc where
  children : List Child
  ann : AnnMap
  seenPaths : List String

/-- One step of `mapEdgesToNodes`: synthesize a placeholder for a missing
edge (also setting `[_invalid]`/`[_type]` on it), otherwise annotate the
real target and record its path in `seenPaths` (`if (node.path)` — an empty
path is falsy).  The final case (`edge.to` absent on a non-missing,
non-optional edge) is where the JavaScript throws a `TypeError`; it is ruled
out by `WFGraph` and modelled as skipping the edge. -/
def mapEdgesToNodes (_g : Graph) (parent : PNode) (acc : MapAcc) (e : Edge) :
    MapAcc :=
  if e.missing || (e.optional && e.eto.isNone) then
    { acc with children := acc.children ++ [ghostOf e parent] }
  else
    match e.eto with
    | some p =>
      let a0 := annGet acc.ann p
      let a1 := if e.invalid then { a0 with invalid := true } else a0
      let a2 := { a1 with etype := some e.etype }
      { children := acc.children ++ [Child.real p]
        ann := annSet acc.ann p a2
        seenPaths := if p == "" then acc.seenPaths else p :: acc.seenPaths }
    | none => acc

/-- The sort key of a child object (`sortAlphabetically` compares
`a.pkgid` with `b.pkgid`). -/
def childPkgid (g : Graph) : Child → String
  | .real p => pkgidAtPath g p
  | .ghost _ pk _ _ _ => pk

/-- `.sort(sortAlphabetically)`: a comparison sort under the locale order.
The exact permutation the comparator induces is irrelevant to the properties
proved here; what matters is that it is a fixed function of the list. -/
def sortChildrenList (g : Graph) (cfg : Cfg) (children : List Child) :
    List Child :=
  List.insertionSort
    (fun a b => cfg.le (childPkgid g a) (childPkgid g b) = true) children

/-- The edges surviving the two filters applied in `getChildren`:
workspace selection first, then the omit set. -/
def survivingEdges (g : Graph) (cfg : Cfg) (parent : PNode) : List Edge :=
  (parent.edgesOut.filter (filterBySelectedWorkspaces g cfg parent)).filter
    (filterByEdgesTypes cfg)

/-- The completed `.map(mapEdgesToNodes({ seenPaths }))` pass over the
surviving edges. -/
def mapAccOf (g : Graph) (cfg : Cfg) (parent : PNode) (ann : AnnMap) : MapAcc :=
  (survivingEdges g cfg parent).foldl (mapEdgesToNodes g parent) ⟨[], ann, []⟩

/-- `appendExtraneousChildren({ node, seenPaths })`: direct children that are
extraneous and were not reached by a surviving edge. -/
def extraneousOf (g : Graph) (parent : PNode) (seenPaths : List String) :
    List PNode :=
  (parent.children.filterMap (nodeAt g)).filter
    (fun c => !seenPaths.contains c.path && c.extraneous)

/-- `getChildren(node)` for a real Arborist node: filter the outgoing edges
by workspace selection and omit set, map them to child objects (annotating
as we go), append extraneous children not reached by a surviving edge, and
sort.  Returns the children and the updated annotation state. -/
def getChildren (g : Graph) (cfg : Cfg) (parent : PNode) (ann : AnnMap) :
    List Child × AnnMap :=
  let acc := mapAccOf g cfg parent ann
  (sortChildrenList g cfg
      (acc.children ++ (extraneousOf g parent acc.seenPaths).map
        (fun c => Child.real c.path)),
    acc.ann)

/-- The state of the breadth-first traversal: `treeverse`'s seen set (real
node paths enqueued so far), its FIFO queue, the annotation state, the
`errors` set (insertion-ordered, deduplicated), and the visit order
(`seenNodes`).  Placeholders all share the map key `undefined` in the
JavaScript `seenNodes`, but every one of them is dropped by the
`!node[_missing]` response filter, so recording them all loses nothing. -/
structure TravSt where
  seen : List String
  queue : List Child
  ann : AnnMap
  errors : List String
  visited : List Child
deriving DecidableEq

/-- Enqueue the children `getChildren` returned: placeholders are fresh
objects and always enqueue; a real node enqueues only if its path is not in
the seen set, which it then joins. -/
def enqueueChildren : List Child → List String → List Child →
    List String × List Child
  | [], seen, queue => (seen, queue)
  | c :: rest, seen, queue =>
    match c with
    | .real p =>
      if seen.contains p then enqueueChildren rest seen queue
      else enqueueChildren rest (p :: seen) (queue ++ [c])
    | .ghost _ _ _ _ _ => enqueueChildren rest seen (queue ++ [c])

/-- Process the item at the head of the queue: `visit` it (collect its
`findErrors` into the error set, record it in `seenNodes`), then expand its
children — none for a placeholder (`shouldSkipChildren`: it is not an
Arborist node).  A real path that no longer resolves would be a dangling
object reference, excluded by `WFGraph`; we just dequeue it. -/
def travStep (g : Graph) (cfg : Cfg) (it : Child) (rest : List Child)
    (st : TravSt) : TravSt :=
  match it with
  | .ghost _ pk reqBy inv ty =>
    { st with
        queue := rest
        errors := errSetAdd st.errors (findErrors ⟨pk, "undefined", some reqBy, inv, some ty⟩)
        visited := st.visited ++ [it] }
  | .real p =>
    match nodeAt g p with
    | none => { st with queue := rest }
    | some n =>
      let a := annGet st.ann p
      let errors := errSetAdd st.errors
        (findErrors ⟨n.pkgid, n.path, none, a.invalid, a.etype⟩)
      let res := getChildren g cfg n st.ann
      let sq := enqueueChildren res.1 st.seen rest
      { seen := sq.1, queue := sq.2, ann := res.2, errors := errors,
        visited := st.visited ++ [it] }

/-- The fuelled traversal loop. -/
def travRun (g : Graph) (cfg : Cfg) : Nat → TravSt → TravSt
  | 0, st => st
  | fuel + 1, st =>
    match st.queue with
    | [] => st
    | it :: rest => travRun g cfg fuel (travStep g cfg it rest st)

/-- `treeverse.breadth` starts by marking the tree root seen and enqueuing
it. -/
def initTravSt (g : Graph) : TravSt :=
  { seen := [g.rootPath], queue := [.real g.rootPath], ann := [], errors := [],
    visited := [] }

/-- Weight of a node for the termination potential: itself plus one
placeholder per outgoing edge. -/
def weight (n : PNode) : Nat := n.edgesOut.length + 1

/-- Fuel that provably drains the queue (`travRun_drains`). -/
def travFuel (g : Graph) : Nat := (g.nodes.map weight).sum + 1

/-- The whole traversal of `exec`. -/
def runSbom (g : Graph) (cfg : Cfg) : TravSt :=
  travRun g cfg (travFuel g) (initTravSt g)

/-- The accumulated structural error set of a run, in insertion order. -/
def errorsOf (g : Graph) (cfg : Cfg) : List String := (runSbom g cfg).errors

/-- `[...seenNodes.values()].filter(node => !node[_missing])`: the visited
real nodes in visit order (placeholders all carry `[_missing]`). -/
def responseNodes (g : Graph) (visited : List Child) : List PNode :=
  visited.filterMap (fun c =>
    match c with
    | .real p => nodeAt g p
    | .ghost _ _ _ _ _ => none)

/-- `exec` for the spdx format: traverse; if the error set is non-empty,
throw the single aggregated `ESBOMPROBLEMS` failure (no document is built);
otherwise build the document over the response nodes.  The `none` branch of
the builder is the `TypeError` the JavaScript throws when no node carries
the root flag. -/
def execSpdx (g : Graph) (cfg : Cfg) (uuid now : String) :
    Except String SpdxBom :=
  if (runSbom g cfg).errors.isEmpty then
    match spdxOutputFull g cfg uuid now (responseNodes g (runSbom g cfg).visited) with
    | some (bom, _) => .ok bom
    | none => .error "TypeError: cannot read pkgid of undefined"
  else
    .error (joinEOL (runSbom g cfg).errors)

/-! ## Projections used to state claims without binders -/

def isOkE : Except String SpdxBom → Bool
  | .ok _ => true
  | .error _ => false

def errMsgE : Except String SpdxBom → Option String
  | .ok _ => none
  | .error m => some m

def okPart {α : Type} (f : SpdxBom → α) : Except String SpdxBom → Option α
  | .ok b => some (f b)
  | .error _ => none

/-! ## Termination potential -/

/-- Weight of a queue item: a placeholder is a leaf; a real node may still
synthesize one placeholder per outgoing edge. -/
def itemWeight (g : Graph) : Child → Nat
  | .ghost _ _ _ _ _ => 1
  | .real p =>
    match nodeAt g p with
    | some n => weight n
    | none => 1

def queueWeight (g : Graph) (q : List Child) : Nat := (q.map (itemWeight g)).sum

def unseenWeight (g : Graph) (seen : List String) : Nat :=
  ((g.nodes.filter (fun n => !seen.contains n.path)).map weight).sum

def travPotential (g : Graph) (st : TravSt) : Nat :=
  queueWeight g st.queue + unseenWeight g st.seen

/-- Count of placeholders among a child list. -/
def countGhosts (l : List Child) : Nat :=
  l.countP (fun c => match c with | .ghost _ _ _ _ _ => true | .real _ => false)

/-- The invariant carried through the traversal for the missing-dependency
theorems: every surviving missing edge of an already-visited node has either
contributed its error line, or its placeholder is still waiting in the
queue. -/
def GoodSt (g : Graph) (cfg : Cfg) (st : TravSt) : Prop :=
  ∀ p, Child.real p ∈ st.visited →
    ∀ n, nodeAt g p = some n →
      ∀ e ∈ n.edgesOut,
        e.missing = true →
        cfg.omitTypes.contains e.etype = false →
        e.etype ≠ "optional" → e.etype ≠ "peerOptional" →
        n.pkgid ≠ "" →
        missingLine e n.pkgid ∈ st.errors ∨ ghostOf e n ∈ st.queue

/-- The invariant carried through the traversal for the determinism theorem:
on a graph with no missing, invalid or unresolved edge, no placeholder is
ever synthesized, no node is ever annotated invalid, and no error line is
ever produced. -/
def CleanTrav (st : TravSt) : Prop :=
  st.errors = []
  ∧ (∀ c ∈ st.queue, ∃ p, c = Child.real p)
  ∧ (∀ pa ∈ st.ann, (pa : String × Ann).2.invalid = false)

/-! ## Concrete fixtures used by witnesses and counterexamples -/

/-- An empty package-metadata object. -/
def basePkg : Pkg :=
  { pname := "", pversion := "", description := none, homepage := none,
    license := none, generatedId := none }

/-- A node with every field at its least interesting value; fixtures override
what they need. -/
def baseNode : PNode :=
  { path := "", pkgid := "", nname := "", version := "", location := "",
    resolved := none, integrity := none, isRoot := false, isLink := false,
    isWorkspace := false, isProjectRoot := false, extraneous := false,
    package := basePkg, edgesOut := [], children := [] }

/-- An edge with every field at its least interesting value. -/
def baseEdge : Edge :=
  { ename := "", espec := "", etype := "prod", eto := none, missing := false,
    invalid := false, optional := false }

/-- A run configuration with the default `omit`/workspace settings and
benign stand-ins for the external libraries. -/
def testCfg : Cfg :=
  { omitTypes := [], workspacesEnabled := true, wsNodes := [],
    packageType := none, npmVersion := "10.9.0",
    normalize := fun p => p,
    toPurl := fun s => "pkg:npm/" ++ s,
    npaType := fun _ => none,
    escapedName := fun s => s,
    ssriParse := fun _ => ("sha512", "deadbeef"),
    le := fun _ _ => true }

/-- A stand-in for `normalize-package-data` exhibiting its documented
in-place effect: normalization always fills in the generated `_id` field
(`name@version`) on the package object it is given. -/
def normalizeDataModel (p : Pkg) : Pkg :=
  { p with generatedId := some (p.pname ++ "@" ++ p.pversion) }

/-- `omit=dev` configuration. -/
def cfgOmitDev : Cfg := { testCfg with omitTypes := ["dev"] }

/-- A missing, non-optional `dev` edge (`right@1.0.0` never resolved). -/
def eDevMissing : Edge :=
  { baseEdge with
    ename := "right", espec := "1.0.0", etype := "dev", missing := true }

/-- Root `app@1.0.0` whose only dependency is the missing dev edge. -/
def rootC1 : PNode :=
  { baseNode with
    path := "/app", pkgid := "app@1.0.0", nname := "app",
    version := "1.0.0", isRoot := true, isProjectRoot := true,
    edgesOut := [eDevMissing] }

def gC1 : Graph := { nodes := [rootC1], rootPath := "/app" }

/-- A node that resolves an edge the resolver flagged invalid. -/
def badNode : PNode :=
  { baseNode with
    path := "/app/node_modules/bad", pkgid := "bad@2.0.0",
    nname := "bad", version := "2.0.0" }

/-- An invalid (version-mismatched) but resolved `prod` edge to `badNode`. -/
def eBadInvalid : Edge :=
  { baseEdge with
    ename := "bad", espec := "^1.0.0", etype := "prod",
    eto := some "/app/node_modules/bad", invalid := true }

/-- Root with both the omitted missing dev edge and the invalid prod edge. -/
def rootC2 : PNode := { rootC1 with edgesOut := [eDevMissing, eBadInvalid] }

def gC2 : Graph := { nodes := [rootC2, badNode], rootPath := "/app" }

/-- A missing, non-optional `prod` edge (`dep@1.0.0` never resolved). -/
def eMissingProd : Edge :=
  { baseEdge with
    ename := "dep", espec := "1.0.0", etype := "prod", missing := true }

/-- Root `app@1.0.0` with the missing prod edge. -/
def rootW : PNode :=
  { baseNode with
    path := "/app", pkgid := "app@1.0.0", nname := "app",
    version := "1.0.0", isRoot := true, isProjectRoot := true,
    edgesOut := [eMissingProd] }

def gW : Graph := { nodes := [rootW], rootPath := "/app" }

/-- A resolved production dependency node. -/
def depNode : PNode :=
  { baseNode with
    path := "/app/node_modules/dep", pkgid := "dep@1.0.0",
    nname := "dep", version := "1.0.0",
    resolved := some "https://registry.npmjs.org/dep/-/dep-1.0.0.tgz" }

/-- A clean resolved `prod` edge to `depNode`. -/
def eDepOk : Edge :=
  { baseEdge with
    ename := "dep", espec := "^1.0.0", etype := "prod",
    eto := some "/app/node_modules/dep" }

/-- Root of a clean graph (no missing, invalid or unresolved edges). -/
def rootC6 : PNode :=
  { baseNode with
    path := "/app", pkgid := "app@1.0.0", nname := "app",
    version := "1.0.0", isRoot := true, isProjectRoot := true,
    edgesOut := [eDepOk] }

def gC6 : Graph := { nodes := [rootC6, depNode], rootPath := "/app" }

/-- Configuration whose normalizer is the modelled `normalize-package-data`. -/
def cfgNorm : Cfg := { testCfg with normalize := normalizeDataModel }

/-- A root whose package metadata carries a name and version (so the
modelled normalizer visibly writes the generated `_id`). -/
def rootC4 : PNode :=
  { baseNode with
    path := "/app", pkgid := "app@1.0.0", nname := "app",
    version := "1.0.0", isRoot := true,
    package := { basePkg with pname := "app", pversion := "1.0.0" } }

def gC4 : Graph := { nodes := [rootC4], rootPath := "/app" }

/-- Configuration with a configured package type. -/
def cfgPT : Cfg := { testCfg with packageType := some "application" }

/-- A peer edge resolved to `depNode` (for the relationship-type witness). -/
def ePeerOk : Edge := { eDepOk with etype := "peer" }

/-- A link node carrying a non-empty resolved locator (for the
download-location witness). -/
def linkNode : PNode :=
  { baseNode with
    path := "/app/node_modules/linked", pkgid := "linked@1.0.0",
    nname := "linked", version := "1.0.0", isLink := true,
    resolved := some "file:../linked" }

/-! ## Helper lemmas: strings and substrings -/

theorem strData_append (a b : String) : (a ++ b).data = a.data ++ b.data := rfl

theorem containsStr_trans {m line sub : String} (h1 : ContainsStr m line)
    (h2 : ContainsStr line sub) : ContainsStr m sub :=
  List.IsInfix.trans h2 h1

theorem containsStr_of_mem_joinEOL {x : String} :
    ∀ {l : List String}, x ∈ l → ContainsStr (joinEOL l) x := by
  intro l
  induction l with
  | nil => intro h; exact absurd h (List.not_mem_nil x)
  | cons a t ih =>
    intro h
    cases t with
    | nil =>
      have hx : x = a := by simpa using h
      subst hx
      exact List.infix_refl _
    | cons b t' =>
      rcases List.mem_cons.mp h with hx | hx
      · subst hx
        show x.data <:+: (x ++ (EOL ++ joinEOL (b :: t'))).data
        rw [strData_append]
        exact (List.prefix_append _ _).isInfix
      · have hJ := ih hx
        show x.data <:+: (a ++ (EOL ++ joinEOL (b :: t'))).data
        rw [strData_append, strData_append]
        exact (hJ.trans (List.suffix_append _ _).isInfix).trans
          (List.suffix_append _ _).isInfix

theorem missingLine_contains_id (e : Edge) (par : String) :
    ContainsStr (missingLine e par) (e.ename ++ "@" ++ e.espec) := by
  show (e.ename ++ "@" ++ e.espec).data <:+:
    ("missing: " ++ (e.ename ++ "@" ++ e.espec) ++ ", required by " ++ par).data
  refine ⟨"missing: ".data, (", required by " ++ par).data, ?_⟩
  simp [strData_append, List.append_assoc]

theorem missingLine_contains_parent (e : Edge) (par : String) :
    ContainsStr (missingLine e par) par := by
  show par.data <:+:
    ("missing: " ++ (e.ename ++ "@" ++ e.espec) ++ ", required by " ++ par).data
  refine ⟨("missing: " ++ (e.ename ++ "@" ++ e.espec) ++ ", required by ").data, [], ?_⟩
  simp [strData_append, List.append_assoc]

/-! ## Helper lemmas: the error set -/

theorem errSetAdd_nil (acc : List String) : errSetAdd acc [] = acc := rfl

theorem mem_errSetAdd_left {x : String} :
    ∀ (ls acc : List String), x ∈ acc → x ∈ errSetAdd acc ls := by
  intro ls
  induction ls with
  | nil => intro acc h; exact h
  | cons l t ih =>
    intro acc h
    show x ∈ errSetAdd (if l ∈ acc then acc else acc ++ [l]) t
    by_cases hl : l ∈ acc
    · rw [if_pos hl]; exact ih acc h
    · rw [if_neg hl]; exact ih _ (List.mem_append_left _ h)

theorem mem_errSetAdd_right {x : String} :
    ∀ (ls acc : List String), x ∈ ls → x ∈ errSetAdd acc ls := by
  intro ls
  induction ls with
  | nil => intro acc h; exact absurd h (List.not_mem_nil x)
  | cons l t ih =>
    intro acc h
    show x ∈ errSetAdd (if l ∈ acc then acc else acc ++ [l]) t
    rcases List.mem_cons.mp h with hx | hx
    · subst hx
      by_cases hl : x ∈ acc
      · rw [if_pos hl]; exact mem_errSetAdd_left t acc hl
      · rw [if_neg hl]
        exact mem_errSetAdd_left t _ (List.mem_append_right _ (List.mem_singleton.mpr rfl))
    · by_cases hl : l ∈ acc
      · rw [if_pos hl]; exact ih acc hx
      · rw [if_neg hl]; exact ih _ hx

theorem errSetAdd_nodup :
    ∀ (ls acc : List String), acc.Nodup → (errSetAdd acc ls).Nodup := by
  intro ls
  induction ls with
  | nil => intro acc h; exact h
  | cons l t ih =>
    intro acc h
    show (errSetAdd (if l ∈ acc then acc else acc ++ [l]) t).Nodup
    by_cases hl : l ∈ acc
    · rw [if_pos hl]; exact ih acc h
    · rw [if_neg hl]
      refine ih _ ?_
      rw [List.nodup_append]
      exact ⟨h, List.nodup_singleton l,
        fun a ha hb => hl (by rwa [List.mem_singleton.mp hb] at ha)⟩

/-! ## Helper lemmas: the traversal loop -/

theorem travRun_succ (g : Graph) (cfg : Cfg) (fuel : Nat) (st : TravSt) :
    travRun g cfg (fuel + 1) st =
      match st.queue with
      | [] => st
      | it :: rest => travRun g cfg fuel (travStep g cfg it rest st) := rfl

theorem step_errors_mono (g : Graph) (cfg : Cfg) (it : Child) (rest : List Child)
    (st : TravSt) {x : String} (h : x ∈ st.errors) :
    x ∈ (travStep g cfg it rest st).errors := by
  cases it with
  | ghost nm pk rb inv ty => exact mem_errSetAdd_left _ _ h
  | real p =>
    show x ∈ (match nodeAt g p with
      | none => { st with queue := rest }
      | some n => _).errors
    cases hn : nodeAt g p with
    | none => simpa using h
    | some n => exact mem_errSetAdd_left _ _ h

theorem travRun_errors_mono (g : Graph) (cfg : Cfg) :
    ∀ (fuel : Nat) (st : TravSt) {x : String}, x ∈ st.errors →
      x ∈ (travRun g cfg fuel st).errors := by
  intro fuel
  induction fuel with
  | zero => intro st x h; exact h
  | succ n ih =>
    intro st x h
    rw [travRun_succ]
    cases hq : st.queue with
    | nil => exact h
    | cons it rest => exact ih _ (step_errors_mono g cfg it rest st h)

theorem step_visited_grows (g : Graph) (cfg : Cfg) (it : Child) (rest : List Child)
    (st : TravSt) : ∃ l, (travStep g cfg it rest st).visited = st.visited ++ l := by
  cases it with
  | ghost nm pk rb inv ty => exact ⟨[Child.ghost nm pk rb inv ty], rfl⟩
  | real p =>
    cases hn : nodeAt g p with
    | none => exact ⟨[], by simp [travStep, hn]⟩
    | some n => exact ⟨[Child.real p], by simp [travStep, hn]⟩

theorem travRun_visited_grows (g : Graph) (cfg : Cfg) :
    ∀ (fuel : Nat) (st : TravSt), ∃ l, (travRun g cfg fuel st).visited = st.visited ++ l := by
  intro fuel
  induction fuel with
  | zero => intro st; exact ⟨[], by simp [travRun]⟩
  | succ n ih =>
    intro st
    rw [travRun_succ]
    cases hq : st.queue with
    | nil => exact ⟨[], by simp⟩
    | cons it rest =>
      obtain ⟨l1, h1⟩ := step_visited_grows g cfg it rest st
      obtain ⟨l2, h2⟩ := ih (travStep g cfg it rest st)
      exact ⟨l1 ++ l2, by rw [h2, h1, List.append_assoc]⟩

/-! ## Helper lemmas: filters and child expansion -/

theorem wsFilter_true (g : Graph) (cfg : Cfg) (parent : PNode) (e : Edge)
    (hws : cfg.workspacesEnabled = true) (hwn : cfg.wsNodes = []) :
    filterBySelectedWorkspaces g cfg parent e = true := by
  unfold filterBySelectedWorkspaces
  rw [hws, hwn]
  simp

theorem mem_survivingEdges (g : Graph) (cfg : Cfg) (parent : PNode) {e : Edge}
    (hws : cfg.workspacesEnabled = true) (hwn : cfg.wsNodes = [])
    (he : e ∈ parent.edgesOut)
    (homit : cfg.omitTypes.contains e.etype = false) :
    e ∈ survivingEdges g cfg parent := by
  unfold survivingEdges
  refine List.mem_filter.mpr ⟨List.mem_filter.mpr ⟨he, ?_⟩, ?_⟩
  · exact wsFilter_true g cfg parent e hws hwn
  · unfold filterByEdgesTypes
    rw [homit]
    rfl

theorem survivingEdges_sub (g : Graph) (cfg : Cfg) (parent : PNode) {e : Edge}
    (he : e ∈ survivingEdges g cfg parent) : e ∈ parent.edgesOut :=
  List.mem_of_mem_filter (List.mem_of_mem_filter he)

theorem mapEdges_ghost_mem (g : Graph) (parent : PNode) (acc : MapAcc) (e : Edge)
    (hm : e.missing = true) :
    ghostOf e parent ∈ (mapEdgesToNodes g parent acc e).children := by
  have hg : (e.missing || (e.optional && e.eto.isNone)) = true := by simp [hm]
  simp [mapEdgesToNodes, hg]

theorem mapEdges_children_extend (g : Graph) (parent : PNode) (acc : MapAcc)
    (e : Edge) :
    (mapEdgesToNodes g parent acc e).children = acc.children
    ∨ ∃ c, (mapEdgesToNodes g parent acc e).children = acc.children ++ [c] := by
  unfold mapEdgesToNodes
  cases hg : (e.missing || (e.optional && e.eto.isNone)) with
  | true => exact Or.inr ⟨ghostOf e parent, by simp⟩
  | false =>
    cases ht : e.eto with
    | none => exact Or.inl (by simp)
    | some p => exact Or.inr ⟨Child.real p, by simp⟩

theorem mapFold_children_mono (g : Graph) (parent : PNode) {c : Child} :
    ∀ (edges : List Edge) (acc : MapAcc), c ∈ acc.children →
      c ∈ (edges.foldl (mapEdgesToNodes g parent) acc).children := by
  intro edges
  induction edges with
  | nil => intro acc h; exact h
  | cons e rest ih =>
    intro acc h
    show c ∈ (rest.foldl (mapEdgesToNodes g parent) (mapEdgesToNodes g parent acc e)).children
    refine ih _ ?_
    rcases mapEdges_children_extend g parent acc e with hc | ⟨c', hc⟩
    · rw [hc]; exact h
    · rw [hc]; exact List.mem_append_left _ h

theorem mapFold_ghost_mem (g : Graph) (parent : PNode) {e : Edge}
    (hm : e.missing = true) :
    ∀ (edges : List Edge) (acc : MapAcc), e ∈ edges →
      ghostOf e parent ∈ (edges.foldl (mapEdgesToNodes g parent) acc).children := by
  intro edges
  induction edges with
  | nil => intro acc h; exact absurd h (List.not_mem_nil e)
  | cons e' rest ih =>
    intro acc h
    show ghostOf e parent ∈
      (rest.foldl (mapEdgesToNodes g parent) (mapEdgesToNodes g parent acc e')).children
    rcases List.mem_cons.mp h with he | he
    · subst he
      exact mapFold_children_mono g parent rest _ (mapEdges_ghost_mem g parent acc e hm)
    · exact ih _ he

theorem mem_sortChildrenList (g : Graph) (cfg : Cfg) {c : Child}
    {children : List Child} (h : c ∈ children) :
    c ∈ sortChildrenList g cfg children :=
  (List.perm_insertionSort _ children).mem_iff.mpr h

theorem ghost_mem_getChildren (g : Graph) (cfg : Cfg) (parent : PNode)
    (ann : AnnMap) {e : Edge}
    (hws : cfg.workspacesEnabled = true) (hwn : cfg.wsNodes = [])
    (he : e ∈ parent.edgesOut) (hm : e.missing = true)
    (homit : cfg.omitTypes.contains e.etype = false) :
    ghostOf e parent ∈ (getChildren g cfg parent ann).1 := by
  show ghostOf e parent ∈ sortChildrenList g cfg _
  refine mem_sortChildrenList g cfg (List.mem_append_left _ ?_)
  exact mapFold_ghost_mem g parent hm _ _
    (mem_survivingEdges g cfg parent hws hwn he homit)

/-! ## Helper lemmas: the enqueue pass -/

theorem enqueue_real_seen {p : String} {rest : List Child} {seen : List String}
    {queue : List Child} (hp : seen.contains p = true) :
    enqueueChildren (Child.real p :: rest) seen queue
      = enqueueChildren rest seen queue := by
  show (if seen.contains p then enqueueChildren rest seen queue
    else enqueueChildren rest (p :: seen) (queue ++ [Child.real p]))
    = enqueueChildren rest seen queue
  rw [hp]
  rfl

theorem enqueue_real_new {p : String} {rest : List Child} {seen : List String}
    {queue : List Child} (hp : seen.contains p = false) :
    enqueueChildren (Child.real p :: rest) seen queue
      = enqueueChildren rest (p :: seen) (queue ++ [Child.real p]) := by
  show (if seen.contains p then enqueueChildren rest seen queue
    else enqueueChildren rest (p :: seen) (queue ++ [Child.real p]))
    = enqueueChildren rest (p :: seen) (queue ++ [Child.real p])
  rw [hp]
  rfl

theorem enqueue_ghost_eq {nm pk rb : String} {inv : Bool} {ty : String}
    {rest : List Child} {seen : List String} {queue : List Child} :
    enqueueChildren (Child.ghost nm pk rb inv ty :: rest) seen queue
      = enqueueChildren rest seen (queue ++ [Child.ghost nm pk rb inv ty]) := rfl

theorem enqueue_queue_mono {c : Child} :
    ∀ (children : List Child) (seen : List String) (queue : List Child),
      c ∈ queue → c ∈ (enqueueChildren children seen queue).2 := by
  intro children
  induction children with
  | nil => intro seen queue h; exact h
  | cons hd rest ih =>
    intro seen queue h
    cases hd with
    | real p =>
      cases hp : seen.contains p with
      | true => rw [enqueue_real_seen hp]; exact ih _ _ h
      | false => rw [enqueue_real_new hp]; exact ih _ _ (List.mem_append_left _ h)
    | ghost nm pk rb inv ty =>
      rw [enqueue_ghost_eq]; exact ih _ _ (List.mem_append_left _ h)

theorem enqueue_ghost_mem {nm pk rb : String} {inv : Bool} {ty : String} :
    ∀ (children : List Child) (seen : List String) (queue : List Child),
      Child.ghost nm pk rb inv ty ∈ children →
      Child.ghost nm pk rb inv ty ∈ (enqueueChildren children seen queue).2 := by
  intro children
  induction children with
  | nil => intro seen queue h; exact absurd h (List.not_mem_nil _)
  | cons hd rest ih =>
    intro seen queue h
    rcases List.mem_cons.mp h with hh | hh
    · rw [← hh]
      rw [enqueue_ghost_eq]
      exact enqueue_queue_mono _ _ _
        (List.mem_append_right _ (List.mem_singleton.mpr rfl))
    · cases hd with
      | real p =>
        cases hp : seen.contains p with
        | true => rw [enqueue_real_seen hp]; exact ih _ _ hh
        | false => rw [enqueue_real_new hp]; exact ih _ _ hh
      | ghost nm' pk' rb' inv' ty' =>
        rw [enqueue_ghost_eq]; exact ih _ _ hh

/-! ## Helper lemmas: explicit forms of a traversal step -/

theorem travStep_ghost (g : Graph) (cfg : Cfg) (nm pk rb : String) (inv : Bool)
    (ty : String) (rest : List Child) (st : TravSt) :
    travStep g cfg (Child.ghost nm pk rb inv ty) rest st =
      { st with
          queue := rest
          errors := errSetAdd st.errors
            (findErrors ⟨pk, "undefined", some rb, inv, some ty⟩)
          visited := st.visited ++ [Child.ghost nm pk rb inv ty] } := rfl

theorem travStep_real_none (g : Graph) (cfg : Cfg) (p₀ : String)
    (rest : List Child) (st : TravSt) (hn0 : nodeAt g p₀ = none) :
    travStep g cfg (Child.real p₀) rest st = { st with queue := rest } := by
  simp [travStep, hn0]

theorem travStep_real_some (g : Graph) (cfg : Cfg) (p₀ : String)
    (rest : List Child) (st : TravSt) (n₀ : PNode)
    (hn0 : nodeAt g p₀ = some n₀) :
    travStep g cfg (Child.real p₀) rest st =
      { seen := (enqueueChildren (getChildren g cfg n₀ st.ann).1 st.seen rest).1
        queue := (enqueueChildren (getChildren g cfg n₀ st.ann).1 st.seen rest).2
        ann := (getChildren g cfg n₀ st.ann).2
        errors := errSetAdd st.errors
          (findErrors ⟨n₀.pkgid, n₀.path, none,
            (annGet st.ann p₀).invalid, (annGet st.ann p₀).etype⟩)
        visited := st.visited ++ [Child.real p₀] } := by
  simp [travStep, hn0]

/-! ## Helper lemmas: preservation of the missing-dependency invariant -/

theorem step_good (g : Graph) (cfg : Cfg) (it : Child) (rest : List Child)
    (st : TravSt) (hws : cfg.workspacesEnabled = true) (hwn : cfg.wsNodes = [])
    (hq : st.queue = it :: rest) (hg : GoodSt g cfg st) :
    GoodSt g cfg (travStep g cfg it rest st) := by
  cases it with
  | ghost nm pk rb inv ty =>
    rw [travStep_ghost]
    intro p hp n hn e he hm homit ho1 ho2 hpk
    have hp' : Child.real p ∈ st.visited := by
      rcases List.mem_append.mp hp with h | h
      · exact h
      · exact absurd (List.mem_singleton.mp h) (by simp)
    rcases hg p hp' n hn e he hm homit ho1 ho2 hpk with hline | hqueue
    · exact Or.inl (mem_errSetAdd_left _ _ hline)
    · rw [hq] at hqueue
      rcases List.mem_cons.mp hqueue with hgh | hgh
      · left
        have hinj := hgh
        unfold ghostOf at hinj
        injection hinj with h1 h2 h3 h4 h5
        subst h1; subst h2; subst h3; subst h4; subst h5
        refine mem_errSetAdd_right _ _ ?_
        have hc2 : ¬ ((some e.etype : Option String) = some "optional"
            ∨ (some e.etype : Option String) = some "peerOptional") := by
          intro hc
          rcases hc with hc | hc
          · exact ho1 (Option.some.inj hc)
          · exact ho2 (Option.some.inj hc)
        have heq : findErrors ⟨e.ename ++ "@" ++ e.espec, "undefined",
            some n.pkgid, e.invalid, some e.etype⟩
            = ("missing: " ++ (e.ename ++ "@" ++ e.espec) ++ ", required by "
                ++ n.pkgid)
              :: (if e.invalid then
                    ["invalid: " ++ (e.ename ++ "@" ++ e.espec) ++ " " ++ "undefined"]
                  else []) := by
          simp only [findErrors]
          rw [if_neg hpk, if_neg hc2]
          rfl
        rw [heq]
        exact List.mem_cons_self _ _
      · exact Or.inr hgh
  | real p₀ =>
    cases hn0 : nodeAt g p₀ with
    | none =>
      rw [travStep_real_none g cfg p₀ rest st hn0]
      intro p hp n hn e he hm homit ho1 ho2 hpk
      rcases hg p hp n hn e he hm homit ho1 ho2 hpk with hline | hqueue
      · exact Or.inl hline
      · rw [hq] at hqueue
        rcases List.mem_cons.mp hqueue with hgh | hgh
        · exact absurd hgh (by simp [ghostOf])
        · exact Or.inr hgh
    | some n₀ =>
      rw [travStep_real_some g cfg p₀ rest st n₀ hn0]
      intro p hp n hn e he hm homit ho1 ho2 hpk
      rcases List.mem_append.mp hp with hpv | hpv
      · rcases hg p hpv n hn e he hm homit ho1 ho2 hpk with hline | hqueue
        · exact Or.inl (mem_errSetAdd_left _ _ hline)
        · rw [hq] at hqueue
          rcases List.mem_cons.mp hqueue with hgh | hgh
          · exact absurd hgh (by simp [ghostOf])
          · exact Or.inr (enqueue_queue_mono _ _ _ hgh)
      · have hpp : p = p₀ := by
          have := List.mem_singleton.mp hpv
          injection this
        subst hpp
        have hnn : n = n₀ := by
          rw [hn] at hn0
          exact Option.some.inj hn0
        subst hnn
        right
        have hmem : ghostOf e n ∈ (getChildren g cfg n st.ann).1 :=
          ghost_mem_getChildren g cfg n st.ann hws hwn he hm homit
        show ghostOf e n ∈ (enqueueChildren (getChildren g cfg n st.ann).1 st.seen rest).2
        unfold ghostOf at hmem ⊢
        exact enqueue_ghost_mem _ _ _ hmem

theorem travRun_good (g : Graph) (cfg : Cfg) (hws : cfg.workspacesEnabled = true)
    (hwn : cfg.wsNodes = []) :
    ∀ (fuel : Nat) (st : TravSt), GoodSt g cfg st →
      GoodSt g cfg (travRun g cfg fuel st) := by
  intro fuel
  induction fuel with
  | zero => intro st h; exact h
  | succ m ih =>
    intro st h
    rw [travRun_succ]
    cases hq : st.queue with
    | nil => exact h
    | cons it rest => exact ih _ (step_good g cfg it rest st hws hwn hq h)

theorem goodSt_init (g : Graph) (cfg : Cfg) : GoodSt g cfg (initTravSt g) := by
  intro p hp
  exact absurd hp (List.not_mem_nil _)

/-! ## Helper lemmas: node lookup -/

theorem nodeAt_mem {g : Graph} {p : String} {m : PNode} (h : nodeAt g p = some m) :
    m ∈ g.nodes :=
  List.mem_of_find?_eq_some h

theorem nodeAt_path_eq {g : Graph} {p : String} {m : PNode}
    (h : nodeAt g p = some m) : m.path = p := by
  have hb := List.find?_some h
  simpa using hb

theorem nodeAt_self {g : Graph} {a : String} {c : PNode}
    (h : nodeAt g a = some c) : nodeAt g c.path = some c := by
  rw [nodeAt_path_eq h]
  exact h

/-! ## Helper lemmas: the termination potential -/

theorem itemWeight_pos (g : Graph) (c : Child) : 1 ≤ itemWeight g c := by
  cases c with
  | ghost nm pk rb inv ty => exact Nat.le_refl 1
  | real p =>
    show 1 ≤ (match nodeAt g p with | some n => weight n | none => 1)
    cases nodeAt g p with
    | none => exact Nat.le_refl 1
    | some n => exact Nat.le_add_left 1 _

theorem queueWeight_cons (g : Graph) (it : Child) (rest : List Child) :
    queueWeight g (it :: rest) = itemWeight g it + queueWeight g rest := by
  simp [queueWeight]

theorem queueWeight_append_one (g : Graph) (q : List Child) (c : Child) :
    queueWeight g (q ++ [c]) = queueWeight g q + itemWeight g c := by
  simp [queueWeight]

theorem unseen_aux {p : String} {m : PNode} :
    ∀ (L : List PNode) (seen : List String),
      (L.map (·.path)).Nodup →
      L.find? (fun n => n.path == p) = some m →
      seen.contains p = false →
      ((L.filter (fun n => !seen.contains n.path)).map weight).sum
        = ((L.filter (fun n => !(p :: seen).contains n.path)).map weight).sum
          + weight m := by
  intro L
  induction L with
  | nil => intro seen hnd hf hc; simp at hf
  | cons x xs ih =>
    intro seen hnd hf hc
    have hpm : p ∉ seen := by simpa using hc
    have hnd2 : (xs.map (·.path)).Nodup := (List.nodup_cons.mp hnd).2
    by_cases hx : x.path = p
    · have hfind : List.find? (fun n => n.path == p) (x :: xs) = some x := by
        simp [List.find?_cons, hx]
      rw [hfind] at hf
      have hm : m = x := (Option.some.inj hf).symm
      rw [hm]
      have hnotin : x.path ∉ xs.map (fun n => n.path) := (List.nodup_cons.mp hnd).1
      have hxs : ∀ n ∈ xs, n.path ≠ p := by
        intro n hn hnp
        refine hnotin ?_
        rw [hx, ← hnp]
        exact List.mem_map_of_mem _ hn
      have hfilter : xs.filter (fun n => !(p :: seen).contains n.path)
          = xs.filter (fun n => !seen.contains n.path) := by
        refine List.filter_congr ?_
        intro n hn
        have hnp := hxs n hn
        simp [hnp]
      have hxkeep : x.path ∉ seen := by rw [hx]; exact hpm
      have h1 : List.filter (fun n => !seen.contains n.path) (x :: xs)
          = x :: List.filter (fun n => !seen.contains n.path) xs := by
        simp [List.filter_cons, hxkeep]
      have hxdrop : x.path ∈ p :: seen := by rw [hx]; exact List.mem_cons_self _ _
      have h2 : List.filter (fun n => !(p :: seen).contains n.path) (x :: xs)
          = List.filter (fun n => !(p :: seen).contains n.path) xs := by
        simp [List.filter_cons, hx]
      rw [h1, h2, hfilter]
      simp only [List.map_cons, List.sum_cons]
      omega
    · have hfind : List.find? (fun n => n.path == p) (x :: xs)
          = List.find? (fun n => n.path == p) xs := by
        simp [List.find?_cons, hx]
      rw [hfind] at hf
      have hrec := ih seen hnd2 hf hc
      by_cases hb : x.path ∈ seen
      · have hb2 : x.path ∈ p :: seen := List.mem_cons_of_mem _ hb
        have h1 : List.filter (fun n => !seen.contains n.path) (x :: xs)
            = List.filter (fun n => !seen.contains n.path) xs := by
          simp [List.filter_cons, hb]
        have h2 : List.filter (fun n => !(p :: seen).contains n.path) (x :: xs)
            = List.filter (fun n => !(p :: seen).contains n.path) xs := by
          simp only [List.filter_cons]
          simp
          exact fun _ => hb
        rw [h1, h2]
        omega
      · have hb2 : x.path ∉ p :: seen := by simp [List.mem_cons, hb, hx]
        have h1 : List.filter (fun n => !seen.contains n.path) (x :: xs)
            = x :: List.filter (fun n => !seen.contains n.path) xs := by
          simp [List.filter_cons, hb]
        have h2 : List.filter (fun n => !(p :: seen).contains n.path) (x :: xs)
            = x :: List.filter (fun n => !(p :: seen).contains n.path) xs := by
          simp only [List.filter_cons]
          simp
          exact ⟨hx, hb⟩
        rw [h1, h2]
        simp only [List.map_cons, List.sum_cons]
        omega

theorem unseenWeight_insert (g : Graph) (hnd : (g.nodes.map (·.path)).Nodup)
    {p : String} {m : PNode} (hm : nodeAt g p = some m)
    {seen : List String} (hc : seen.contains p = false) :
    unseenWeight g seen = unseenWeight g (p :: seen) + weight m :=
  unseen_aux g.nodes seen hnd hm hc

theorem unseenWeight_le_total (g : Graph) (seen : List String) :
    unseenWeight g seen ≤ (g.nodes.map weight).sum := by
  unfold unseenWeight
  exact ((List.filter_sublist _).map weight).sum_le_sum (fun _ _ => Nat.zero_le _)

theorem unseenWeight_nil (g : Graph) :
    unseenWeight g [] = (g.nodes.map weight).sum := by
  unfold unseenWeight
  congr 1
  congr 1
  exact List.filter_eq_self.mpr (fun a _ => rfl)

/-! ## Helper lemmas: counting placeholders -/

theorem countGhosts_append (a b : List Child) :
    countGhosts (a ++ b) = countGhosts a + countGhosts b :=
  List.countP_append _ _ _

theorem countGhosts_realMap (l : List PNode) :
    countGhosts (l.map (fun c => Child.real c.path)) = 0 := by
  induction l with
  | nil => rfl
  | cons x xs ih => simp [countGhosts, List.countP_cons]

theorem countGhosts_sort (g : Graph) (cfg : Cfg) (l : List Child) :
    countGhosts (sortChildrenList g cfg l) = countGhosts l :=
  (List.perm_insertionSort _ l).countP_eq _

theorem mapEdges_count (g : Graph) (parent : PNode) (acc : MapAcc) (e : Edge) :
    countGhosts (mapEdgesToNodes g parent acc e).children
      ≤ countGhosts acc.children + 1 := by
  rcases mapEdges_children_extend g parent acc e with hc | ⟨c, hc⟩
  · rw [hc]; omega
  · rw [hc, countGhosts_append]
    have : countGhosts [c] ≤ 1 := List.countP_le_length _
    omega

theorem mapFold_count (g : Graph) (parent : PNode) :
    ∀ (edges : List Edge) (acc : MapAcc),
      countGhosts (edges.foldl (mapEdgesToNodes g parent) acc).children
        ≤ countGhosts acc.children + edges.length := by
  intro edges
  induction edges with
  | nil => intro acc; simp
  | cons e rest ih =>
    intro acc
    have h1 := ih (mapEdgesToNodes g parent acc e)
    have h2 := mapEdges_count g parent acc e
    show countGhosts (rest.foldl (mapEdgesToNodes g parent)
      (mapEdgesToNodes g parent acc e)).children ≤ _
    simp only [List.length_cons]
    omega

theorem getChildren_ghost_count (g : Graph) (cfg : Cfg) (parent : PNode)
    (ann : AnnMap) :
    countGhosts (getChildren g cfg parent ann).1 ≤ parent.edgesOut.length := by
  show countGhosts (sortChildrenList g cfg _) ≤ _
  rw [countGhosts_sort, countGhosts_append, countGhosts_realMap]
  have h1 := mapFold_count g parent (survivingEdges g cfg parent) ⟨[], ann, []⟩
  have h2 : (survivingEdges g cfg parent).length ≤ parent.edgesOut.length := by
    unfold survivingEdges
    exact Nat.le_trans (List.length_filter_le _ _) (List.length_filter_le _ _)
  have h3 : countGhosts (⟨[], ann, []⟩ : MapAcc).children = 0 := rfl
  unfold mapAccOf
  omega

/-! ## Helper lemmas: real children resolve under well-formedness -/

theorem mapFold_real_isSome (g : Graph) (parent : PNode) {cp : String} :
    ∀ (edges : List Edge) (acc : MapAcc),
      (∀ e ∈ edges, edgeWFb g e = true) →
      (∀ q, Child.real q ∈ acc.children → (nodeAt g q).isSome = true) →
      Child.real cp ∈ (edges.foldl (mapEdgesToNodes g parent) acc).children →
      (nodeAt g cp).isSome = true := by
  intro edges
  induction edges with
  | nil => intro acc hwfe hacc h; exact hacc cp h
  | cons e rest ih =>
    intro acc hwfe hacc h
    refine ih (mapEdgesToNodes g parent acc e)
      (fun e' he' => hwfe e' (List.mem_cons_of_mem _ he')) ?_ h
    intro q hq
    revert hq
    unfold mapEdgesToNodes
    cases hg : (e.missing || (e.optional && e.eto.isNone)) with
    | true =>
      intro hq
      simp only at hq
      rcases List.mem_append.mp hq with h1 | h1
      · exact hacc q h1
      · exact absurd (List.mem_singleton.mp h1) (by simp [ghostOf])
    | false =>
      cases ht : e.eto with
      | none => intro hq; exact hacc q hq
      | some p =>
        intro hq
        simp only at hq
        rcases List.mem_append.mp hq with h1 | h1
        · exact hacc q h1
        · have hqp : q = p := by
            have := List.mem_singleton.mp h1
            injection this
          subst hqp
          have := hwfe e (List.mem_cons_self _ _)
          unfold edgeWFb at this
          rw [ht] at this
          exact this

theorem getChildren_real_isSome (g : Graph) (cfg : Cfg) (parent : PNode)
    (ann : AnnMap)
    (hwfe : ∀ e ∈ parent.edgesOut, edgeWFb g e = true) {cp : String}
    (h : Child.real cp ∈ (getChildren g cfg parent ann).1) :
    (nodeAt g cp).isSome = true := by
  have h' : Child.real cp ∈ (mapAccOf g cfg parent ann).children
      ++ (extraneousOf g parent (mapAccOf g cfg parent ann).seenPaths).map
        (fun c => Child.real c.path) :=
    (List.perm_insertionSort _ _).mem_iff.mp h
  rcases List.mem_append.mp h' with h1 | h1
  · exact mapFold_real_isSome g parent _ _
      (fun e he => hwfe e (survivingEdges_sub g cfg parent he))
      (fun q hq => absurd hq (List.not_mem_nil _)) h1
  · rcases List.mem_map.mp h1 with ⟨c, hc, hceq⟩
    have hcp : c.path = cp := by injection hceq
    have hc1 : c ∈ (parent.children.filterMap (nodeAt g)) :=
      List.mem_of_mem_filter hc
    rcases List.mem_filterMap.mp hc1 with ⟨a, _, hna⟩
    rw [← hcp, nodeAt_self hna]
    rfl

/-! ## Helper lemmas: each step strictly decreases the potential -/

theorem enqueue_weight (g : Graph) (hnd : (g.nodes.map (·.path)).Nodup) :
    ∀ (children : List Child) (seen : List String) (queue : List Child),
      (∀ q, Child.real q ∈ children → (nodeAt g q).isSome = true) →
      queueWeight g (enqueueChildren children seen queue).2
        + unseenWeight g (enqueueChildren children seen queue).1
      ≤ queueWeight g queue + unseenWeight g seen + countGhosts children := by
  intro children
  induction children with
  | nil => intro seen queue _; simp [enqueueChildren, countGhosts]
  | cons hd rest ih =>
    intro seen queue hreal
    cases hd with
    | ghost nm pk rb inv ty =>
      rw [enqueue_ghost_eq]
      have h1 := ih seen (queue ++ [Child.ghost nm pk rb inv ty])
        (fun q hq => hreal q (List.mem_cons_of_mem _ hq))
      have h2 := queueWeight_append_one g queue (Child.ghost nm pk rb inv ty)
      have h3 : itemWeight g (Child.ghost nm pk rb inv ty) = 1 := rfl
      have h4 : countGhosts (Child.ghost nm pk rb inv ty :: rest)
          = countGhosts rest + 1 := by
        simp [countGhosts, List.countP_cons]
      omega
    | real p =>
      have h4 : countGhosts (Child.real p :: rest) = countGhosts rest := by
        simp [countGhosts, List.countP_cons]
      cases hp : seen.contains p with
      | true =>
        rw [enqueue_real_seen hp]
        have h1 := ih seen queue (fun q hq => hreal q (List.mem_cons_of_mem _ hq))
        omega
      | false =>
        rw [enqueue_real_new hp]
        have hsome := hreal p (List.mem_cons_self _ _)
        rcases Option.isSome_iff_exists.mp hsome with ⟨m, hm⟩
        have h1 := ih (p :: seen) (queue ++ [Child.real p])
          (fun q hq => hreal q (List.mem_cons_of_mem _ hq))
        have h2 := queueWeight_append_one g queue (Child.real p)
        have h3 : itemWeight g (Child.real p) = weight m := by
          simp [itemWeight, hm]
        have h5 := unseenWeight_insert g hnd hm hp
        omega

theorem step_potential (g : Graph) (cfg : Cfg) (it : Child) (rest : List Child)
    (st : TravSt) (hwf : WFGraph g) (hq : st.queue = it :: rest) :
    travPotential g (travStep g cfg it rest st) < travPotential g st := by
  obtain ⟨hnd, hwfe, _⟩ := hwf
  cases it with
  | ghost nm pk rb inv ty =>
    rw [travStep_ghost]
    show queueWeight g rest + unseenWeight g st.seen < travPotential g st
    unfold travPotential
    rw [hq, queueWeight_cons]
    have : itemWeight g (Child.ghost nm pk rb inv ty) = 1 := rfl
    omega
  | real p₀ =>
    cases hn0 : nodeAt g p₀ with
    | none =>
      rw [travStep_real_none g cfg p₀ rest st hn0]
      show queueWeight g rest + unseenWeight g st.seen < travPotential g st
      unfold travPotential
      rw [hq, queueWeight_cons]
      have := itemWeight_pos g (Child.real p₀)
      omega
    | some n₀ =>
      rw [travStep_real_some g cfg p₀ rest st n₀ hn0]
      show queueWeight g (enqueueChildren (getChildren g cfg n₀ st.ann).1 st.seen rest).2
          + unseenWeight g (enqueueChildren (getChildren g cfg n₀ st.ann).1 st.seen rest).1
        < travPotential g st
      have hn₀mem : n₀ ∈ g.nodes := nodeAt_mem hn0
      have h1 := enqueue_weight g hnd (getChildren g cfg n₀ st.ann).1 st.seen rest
        (fun q hq' => getChildren_real_isSome g cfg n₀ st.ann (hwfe n₀ hn₀mem) hq')
      have h2 := getChildren_ghost_count g cfg n₀ st.ann
      unfold travPotential
      rw [hq, queueWeight_cons]
      have h3 : itemWeight g (Child.real p₀) = weight n₀ := by
        simp [itemWeight, hn0]
      unfold weight at h3
      omega

/-! ## Helper lemmas: the fuel drains the queue -/

theorem travRun_drains (g : Graph) (cfg : Cfg) (hwf : WFGraph g) :
    ∀ (fuel : Nat) (st : TravSt), travPotential g st ≤ fuel →
      (travRun g cfg fuel st).queue = [] := by
  intro fuel
  induction fuel with
  | zero =>
    intro st h
    show st.queue = []
    cases hq : st.queue with
    | nil => rfl
    | cons it rest =>
      exfalso
      have h1 := itemWeight_pos g it
      have h2 : travPotential g st ≥ 1 := by
        unfold travPotential
        rw [hq, queueWeight_cons]
        omega
      omega
  | succ m ih =>
    intro st h
    rw [travRun_succ]
    cases hq : st.queue with
    | nil => exact hq
    | cons it rest =>
      have hlt := step_potential g cfg it rest st hwf hq
      exact ih _ (by omega)

theorem potential_init_le (g : Graph)
    (hnd : (g.nodes.map (·.path)).Nodup) :
    travPotential g (initTravSt g) ≤ travFuel g := by
  unfold travPotential initTravSt travFuel
  cases hm : nodeAt g g.rootPath with
  | none =>
    have h1 : queueWeight g [Child.real g.rootPath] = 1 := by
      simp [queueWeight, itemWeight, hm]
    have h2 := unseenWeight_le_total g [g.rootPath]
    simp only []
    omega
  | some r =>
    have h1 : queueWeight g [Child.real g.rootPath] = weight r := by
      simp [queueWeight, itemWeight, hm]
    have h2 : unseenWeight g [] = unseenWeight g [g.rootPath] + weight r :=
      unseenWeight_insert g hnd hm rfl
    have h3 := unseenWeight_nil g
    simp only []
    omega

/-! ## The missing-dependency error reaches the final error set -/

theorem runSbom_queue_empty (g : Graph) (cfg : Cfg) (hwf : WFGraph g) :
    (runSbom g cfg).queue = [] :=
  travRun_drains g cfg hwf (travFuel g) (initTravSt g) (potential_init_le g hwf.1)

theorem missing_line_in_errors (g : Graph) (cfg : Cfg) (hwf : WFGraph g)
    (hws : cfg.workspacesEnabled = true) (hwn : cfg.wsNodes = [])
    {p : String} {n : PNode} {e : Edge}
    (hvis : Child.real p ∈ (runSbom g cfg).visited)
    (hn : nodeAt g p = some n) (he : e ∈ n.edgesOut) (hm : e.missing = true)
    (homit : cfg.omitTypes.contains e.etype = false)
    (ho1 : e.etype ≠ "optional") (ho2 : e.etype ≠ "peerOptional")
    (hpk : n.pkgid ≠ "") :
    missingLine e n.pkgid ∈ errorsOf g cfg := by
  have hgood := travRun_good g cfg hws hwn (travFuel g) (initTravSt g)
    (goodSt_init g cfg)
  rcases hgood p hvis n hn e he hm homit ho1 ho2 hpk with hline | hghost
  · exact hline
  · have hq : (runSbom g cfg).queue = [] := runSbom_queue_empty g cfg hwf
    have hghost2 : ghostOf e n ∈ (runSbom g cfg).queue := hghost
    rw [hq] at hghost2
    exact absurd hghost2 (List.not_mem_nil _)

theorem errorsOf_ne_nil_of_mem {g : Graph} {cfg : Cfg} {x : String}
    (h : x ∈ errorsOf g cfg) : errorsOf g cfg ≠ [] := by
  intro hnil
  rw [hnil] at h
  exact absurd h (List.not_mem_nil x)

theorem execSpdx_error_form (g : Graph) (cfg : Cfg) (u t : String)
    (h : errorsOf g cfg ≠ []) :
    execSpdx g cfg u t = Except.error (joinEOL (errorsOf g cfg)) := by
  unfold execSpdx
  have hne : (runSbom g cfg).errors.isEmpty = false := by
    cases he : (runSbom g cfg).errors with
    | nil => exact absurd he h
    | cons a l => rfl
  rw [hne]
  rfl

/-! ## Clean graphs produce no errors -/

theorem annGet_invalid_false {ann : AnnMap}
    (h : ∀ pa ∈ ann, (pa : String × Ann).2.invalid = false) (p : String) :
    (annGet ann p).invalid = false := by
  unfold annGet
  cases hf : List.find? (fun pa => pa.1 == p) ann with
  | none => rfl
  | some pa => exact h pa (List.mem_of_find?_eq_some hf)

theorem findErrors_clean (pkgid pathd : String) (et : Option String) :
    findErrors ⟨pkgid, pathd, none, false, et⟩ = [] := rfl

theorem enqueue_mem_src {c : Child} :
    ∀ (children : List Child) (seen : List String) (queue : List Child),
      c ∈ (enqueueChildren children seen queue).2 → c ∈ queue ∨ c ∈ children := by
  intro children
  induction children with
  | nil => intro seen queue h; exact Or.inl h
  | cons hd rest ih =>
    intro seen queue h
    cases hd with
    | real p =>
      cases hp : seen.contains p with
      | true =>
        rw [enqueue_real_seen hp] at h
        rcases ih _ _ h with h1 | h1
        · exact Or.inl h1
        · exact Or.inr (List.mem_cons_of_mem _ h1)
      | false =>
        rw [enqueue_real_new hp] at h
        rcases ih _ _ h with h1 | h1
        · rcases List.mem_append.mp h1 with h2 | h2
          · exact Or.inl h2
          · exact Or.inr (by rw [List.mem_singleton.mp h2]; exact List.mem_cons_self _ _)
        · exact Or.inr (List.mem_cons_of_mem _ h1)
    | ghost nm pk rb inv ty =>
      rw [enqueue_ghost_eq] at h
      rcases ih _ _ h with h1 | h1
      · rcases List.mem_append.mp h1 with h2 | h2
        · exact Or.inl h2
        · exact Or.inr (by rw [List.mem_singleton.mp h2]; exact List.mem_cons_self _ _)
      · exact Or.inr (List.mem_cons_of_mem _ h1)

theorem mapFold_clean_real (g : Graph) (parent : PNode) {c : Child} :
    ∀ (edges : List Edge) (acc : MapAcc),
      (∀ e ∈ edges, e.missing = false ∧ e.eto.isSome = true) →
      (∀ c' ∈ acc.children, ∃ q, c' = Child.real q) →
      c ∈ (edges.foldl (mapEdgesToNodes g parent) acc).children →
      ∃ q, c = Child.real q := by
  intro edges
  induction edges with
  | nil => intro acc hcl hacc h; exact hacc c h
  | cons e rest ih =>
    intro acc hcl hacc h
    refine ih (mapEdgesToNodes g parent acc e)
      (fun e' he' => hcl e' (List.mem_cons_of_mem _ he')) ?_ h
    intro c' hc'
    have hce := hcl e (List.mem_cons_self _ _)
    have hguard : (e.missing || (e.optional && e.eto.isNone)) = false := by
      rcases hce with ⟨hm, hs⟩
      have : e.eto.isNone = false := by
        cases ht : e.eto with
        | none => rw [ht] at hs; simp at hs
        | some q => rfl
      simp [hm, this]
    revert hc'
    unfold mapEdgesToNodes
    rw [hguard]
    cases ht : e.eto with
    | none =>
      rcases hcl e (List.mem_cons_self _ _) with ⟨_, hs⟩
      rw [ht] at hs
      simp at hs
    | some q =>
      intro hc'
      simp only at hc'
      rcases List.mem_append.mp hc' with h1 | h1
      · exact hacc c' h1
      · exact ⟨q, List.mem_singleton.mp h1⟩

theorem clean_getChildren_real (g : Graph) (cfg : Cfg) (parent : PNode)
    (ann : AnnMap)
    (hcl : ∀ e ∈ parent.edgesOut, e.missing = false ∧ e.eto.isSome = true)
    {c : Child} (hc : c ∈ (getChildren g cfg parent ann).1) :
    ∃ q, c = Child.real q := by
  have hc' : c ∈ (mapAccOf g cfg parent ann).children
      ++ (extraneousOf g parent (mapAccOf g cfg parent ann).seenPaths).map
        (fun n => Child.real n.path) :=
    (List.perm_insertionSort _ _).mem_iff.mp hc
  rcases List.mem_append.mp hc' with h1 | h1
  · exact mapFold_clean_real g parent _ _
      (fun e he => hcl e (survivingEdges_sub g cfg parent he))
      (fun c' hc'' => absurd hc'' (List.not_mem_nil _)) h1
  · rcases List.mem_map.mp h1 with ⟨n, _, hn⟩
    exact ⟨n.path, hn.symm⟩

theorem mapFold_clean_ann (g : Graph) (parent : PNode) :
    ∀ (edges : List Edge) (acc : MapAcc),
      (∀ e ∈ edges, e.invalid = false) →
      (∀ pa ∈ acc.ann, (pa : String × Ann).2.invalid = false) →
      ∀ pa ∈ (edges.foldl (mapEdgesToNodes g parent) acc).ann,
        (pa : String × Ann).2.invalid = false := by
  intro edges
  induction edges with
  | nil => intro acc hcl hacc pa hpa; exact hacc pa hpa
  | cons e rest ih =>
    intro acc hcl hacc
    refine ih (mapEdgesToNodes g parent acc e)
      (fun e' he' => hcl e' (List.mem_cons_of_mem _ he')) ?_
    intro pa hpa
    revert hpa
    unfold mapEdgesToNodes
    cases hg : (e.missing || (e.optional && e.eto.isNone)) with
    | true => intro hpa; exact hacc pa hpa
    | false =>
      cases ht : e.eto with
      | none => intro hpa; exact hacc pa hpa
      | some q =>
        intro hpa
        simp only [annSet] at hpa
        rcases List.mem_cons.mp hpa with h1 | h1
        · have hinv : e.invalid = false := hcl e (List.mem_cons_self _ _)
          rw [h1]
          show (if e.invalid then { annGet acc.ann q with invalid := true }
            else annGet acc.ann q).invalid = false
          rw [hinv]
          show (annGet acc.ann q).invalid = false
          exact annGet_invalid_false hacc q
        · exact hacc pa h1

theorem step_clean (g : Graph) (cfg : Cfg) (it : Child) (rest : List Child)
    (st : TravSt) (hcl : cleanEdges g) (hq : st.queue = it :: rest)
    (hst : CleanTrav st) : CleanTrav (travStep g cfg it rest st) := by
  obtain ⟨herr, hqreal, hann⟩ := hst
  obtain ⟨p, hp⟩ := hqreal it (hq ▸ List.mem_cons_self it rest)
  subst hp
  cases hn : nodeAt g p with
  | none =>
    rw [travStep_real_none g cfg p rest st hn]
    refine ⟨herr, ?_, hann⟩
    intro c hc
    exact hqreal c (hq ▸ List.mem_cons_of_mem _ hc)
  | some n =>
    rw [travStep_real_some g cfg p rest st n hn]
    have hnc := hcl n (nodeAt_mem hn)
    refine ⟨?_, ?_, ?_⟩
    · show errSetAdd st.errors
        (findErrors ⟨n.pkgid, n.path, none,
          (annGet st.ann p).invalid, (annGet st.ann p).etype⟩) = []
      rw [annGet_invalid_false hann p, findErrors_clean, errSetAdd_nil]
      exact herr
    · intro c hc
      rcases enqueue_mem_src _ _ _ hc with h1 | h1
      · exact hqreal c (hq ▸ List.mem_cons_of_mem _ h1)
      · exact clean_getChildren_real g cfg n st.ann
          (fun e he => ⟨(hnc e he).1, (hnc e he).2.2⟩) h1
    · intro pa hpa
      refine mapFold_clean_ann g n (survivingEdges g cfg n) ⟨[], st.ann, []⟩
        (fun e he => (hnc e (survivingEdges_sub g cfg n he)).2.1)
        (fun pa' hpa' => hann pa' hpa') pa ?_
      exact hpa

theorem travRun_clean (g : Graph) (cfg : Cfg) (hcl : cleanEdges g) :
    ∀ (fuel : Nat) (st : TravSt), CleanTrav st →
      CleanTrav (travRun g cfg fuel st) := by
  intro fuel
  induction fuel with
  | zero => intro st h; exact h
  | succ m ih =>
    intro st h
    rw [travRun_succ]
    cases hq : st.queue with
    | nil => exact h
    | cons it rest => exact ih _ (step_clean g cfg it rest st hcl hq h)

theorem cleanTrav_init (g : Graph) : CleanTrav (initTravSt g) := by
  refine ⟨rfl, ?_, ?_⟩
  · intro c hc
    exact ⟨g.rootPath, List.mem_singleton.mp hc⟩
  · intro pa hpa
    exact absurd hpa (List.not_mem_nil _)

theorem errorsOf_clean (g : Graph) (cfg : Cfg) (hcl : cleanEdges g) :
    errorsOf g cfg = [] :=
  (travRun_clean g cfg hcl (travFuel g) (initTravSt g) (cleanTrav_init g)).1

/-! ## The root is visited first -/

theorem runSbom_visited_shape (g : Graph) (cfg : Cfg) {r : PNode}
    (hr : nodeAt g g.rootPath = some r) :
    ∃ l, (runSbom g cfg).visited = Child.real g.rootPath :: l := by
  have hstep := travStep_real_some g cfg g.rootPath [] (initTravSt g) r hr
  obtain ⟨l, hl⟩ := travRun_visited_grows g cfg ((g.nodes.map weight).sum)
    (travStep g cfg (Child.real g.rootPath) [] (initTravSt g))
  refine ⟨l, ?_⟩
  show (travRun g cfg ((g.nodes.map weight).sum)
    (travStep g cfg (Child.real g.rootPath) [] (initTravSt g))).visited = _
  rw [hl, hstep]
  rfl

theorem responseNodes_head (g : Graph) (cfg : Cfg) {r : PNode}
    (hr : nodeAt g g.rootPath = some r) :
    ∃ rest, responseNodes g (runSbom g cfg).visited = r :: rest := by
  obtain ⟨l, hl⟩ := runSbom_visited_shape g cfg hr
  rw [hl]
  refine ⟨responseNodes g l, ?_⟩
  show List.filterMap _ (Child.real g.rootPath :: l) = _
  rw [List.filterMap_cons]
  simp only [hr]
  rfl

/-! ## Builder projections -/

theorem toSpdxItem_SPDXID (cfg : Cfg) (node : PNode) (pt : Option String) :
    ((toSpdxItem cfg node pt).1).SPDXID = toSpdxID node.pkgid := rfl

theorem toSpdxItem_node (cfg : Cfg) (node : PNode) (pt : Option String) :
    (toSpdxItem cfg node pt).2 = { node with package := cfg.normalize node.package } := rfl

theorem toSpdxItem_purpose_none (cfg : Cfg) (node : PNode) :
    ((toSpdxItem cfg node none).1).primaryPackagePurpose = none := rfl

theorem toSpdxItem_purpose_some (cfg : Cfg) (node : PNode) (pt : String)
    (h : pt ≠ "") :
    ((toSpdxItem cfg node (some pt)).1).primaryPackagePurpose
      = some (jsToUpper pt) := by
  simp [toSpdxItem, h]

theorem spdxOutputFull_parts (g : Graph) (cfg : Cfg) (u t : String)
    (nodes : List PNode) (r : PNode) (bom : SpdxBom) (after : List PNode)
    (hfind : nodes.find? (·.isRoot) = some r)
    (hout : spdxOutputFull g cfg u t nodes = some (bom, after)) :
    bom.packages = (toSpdxItem cfg r cfg.packageType).1
        :: ((nodes.filter (fun n => !n.isRoot)).map
              (fun n => toSpdxItem cfg n none)).map (fun x => x.1)
    ∧ bom.relationships = { spdxElementId := SPDX_IDENTIFER,
                            relatedSpdxElement := toSpdxID r.pkgid,
                            relationshipType := "DESCRIBES" }
        :: (nodes.map (fun node =>
            (node.edgesOut.filter (edgeTargetIncluded g nodes)).filterMap
              (toSpdxRelationship g node))).flatten
    ∧ bom.spdxVersion = SPDX_SCHEMA_VERSION
    ∧ bom.dataLicense = SPDX_DATA_LICENSE
    ∧ bom.SPDXID = SPDX_IDENTIFER
    ∧ bom.bname = r.pkgid
    ∧ bom.documentNamespace = "http://spdx.org/spdxdocs/"
        ++ cfg.escapedName r.pkgid ++ "-" ++ r.version ++ "-" ++ u
    ∧ bom.creationInfo = { created := t,
                           creators := ["Tool: npm/cli-" ++ cfg.npmVersion] }
    ∧ bom.documentDescribes = [toSpdxID r.pkgid]
    ∧ after = (toSpdxItem cfg r cfg.packageType).2
        :: ((nodes.filter (fun n => !n.isRoot)).map
              (fun n => toSpdxItem cfg n none)).map (fun x => x.2) := by
  simp only [spdxOutputFull, hfind] at hout
  have h2 := Option.some.inj hout
  have hb : bom = (⟨SPDX_SCHEMA_VERSION, SPDX_DATA_LICENSE, SPDX_IDENTIFER,
      r.pkgid,
      "http://spdx.org/spdxdocs/" ++ cfg.escapedName r.pkgid ++ "-"
        ++ r.version ++ "-" ++ u,
      { created := t, creators := ["Tool: npm/cli-" ++ cfg.npmVersion] },
      [toSpdxID r.pkgid],
      (toSpdxItem cfg r cfg.packageType).1
        :: ((nodes.filter (fun n => !n.isRoot)).map
              (fun n => toSpdxItem cfg n none)).map (fun x => x.1),
      { spdxElementId := SPDX_IDENTIFER, relatedSpdxElement := toSpdxID r.pkgid,
        relationshipType := "DESCRIBES" }
        :: (nodes.map (fun node =>
            (node.edgesOut.filter (edgeTargetIncluded g nodes)).filterMap
              (toSpdxRelationship g node))).flatten⟩ : SpdxBom) :=
    (congrArg Prod.fst h2).symm
  have ha : after = (toSpdxItem cfg r cfg.packageType).2
      :: ((nodes.filter (fun n => !n.isRoot)).map
            (fun n => toSpdxItem cfg n none)).map (fun x => x.2) :=
    (congrArg Prod.snd h2).symm
  subst hb
  exact ⟨rfl, rfl, rfl, rfl, rfl, rfl, rfl, rfl, rfl, ha⟩

/-! ## A clean run builds the document -/

theorem execSpdx_ok (g : Graph) (cfg : Cfg) (u t : String)
    (herr : errorsOf g cfg = []) {r : PNode}
    (hr : nodeAt g g.rootPath = some r) (hroot : r.isRoot = true) :
    ∃ bom after rest,
      responseNodes g (runSbom g cfg).visited = r :: rest ∧
      spdxOutputFull g cfg u t (r :: rest) = some (bom, after) ∧
      execSpdx g cfg u t = Except.ok bom := by
  obtain ⟨rest, hresp⟩ := responseNodes_head g cfg hr
  have hfind : List.find? (fun n => n.isRoot) (r :: rest) = some r := by
    simp [List.find?_cons, hroot]
  have hfull : ∃ bom after,
      spdxOutputFull g cfg u t (r :: rest) = some (bom, after) := by
    unfold spdxOutputFull
    rw [hfind]
    exact ⟨_, _, rfl⟩
  obtain ⟨bom, after, hfull⟩ := hfull
  refine ⟨bom, after, rest, hresp, hfull, ?_⟩
  unfold execSpdx
  have hEmpty : (runSbom g cfg).errors.isEmpty = true := by
    have h0 : (runSbom g cfg).errors = [] := herr
    rw [h0]
    rfl
  rw [hEmpty, hresp, hfull]
  rfl

/-! ## The error set never holds duplicates -/

theorem step_errors_nodup (g : Graph) (cfg : Cfg) (it : Child)
    (rest : List Child) (st : TravSt) (h : st.errors.Nodup) :
    (travStep g cfg it rest st).errors.Nodup := by
  cases it with
  | ghost nm pk rb inv ty => exact errSetAdd_nodup _ _ h
  | real p =>
    cases hn : nodeAt g p with
    | none => rw [travStep_real_none g cfg p rest st hn]; exact h
    | some n =>
      rw [travStep_real_some g cfg p rest st n hn]
      exact errSetAdd_nodup _ _ h

theorem travRun_errors_nodup (g : Graph) (cfg : Cfg) :
    ∀ (fuel : Nat) (st : TravSt), st.errors.Nodup →
      (travRun g cfg fuel st).errors.Nodup := by
  intro fuel
  induction fuel with
  | zero => intro st h; exact h
  | succ m ih =>
    intro st h
    rw [travRun_succ]
    cases hq : st.queue with
    | nil => exact h
    | cons it rest => exact ih _ (step_errors_nodup g cfg it rest st h)

/-! ## Dependency relationships are never DESCRIBES -/

theorem toSpdxRelationship_ne_describes (g : Graph) (node : PNode) (e : Edge)
    (rel : SpdxRelationship) (h : toSpdxRelationship g node e = some rel) :
    (rel.relationshipType == "DESCRIBES") = false := by
  cases ht : e.eto with
  | none => simp [toSpdxRelationship, ht] at h
  | some p =>
    unfold toSpdxRelationship at h
    rw [ht] at h
    have hrel : rel = _ := (Option.some.inj h).symm
    rw [hrel]
    show ((if e.etype == "peer" then "HAS_PREREQUISITE"
      else if e.etype == "optional" then "OPTIONAL_DEPENDENCY_OF"
      else if e.etype == "dev" then "DEV_DEPENDENCY_OF"
      else "DEPENDS_ON") == "DESCRIBES") = false
    cases h1 : e.etype == "peer" with
    | true => simp
    | false =>
      cases h2 : e.etype == "optional" with
      | true => simp
      | false =>
        cases h3 : e.etype == "dev" with
        | true => simp
        | false => simp

/-! ## Claims -/

/-- C5 counterexample: `toSpdxID` is not injective.  The scoped package
identifier `@scope/a@1.0.0` and the unscoped identifier `scope.a@1.0.0`
are distinct, yet both map to `SPDXRef-Package-scope.a-1.0.0`: stripping
the leading scope marker and substituting `/`→`.` and `@`→`-` collapses
them. -/
theorem c5_injective_counterexample :
    toSpdxID "@scope/a@1.0.0" = toSpdxID "scope.a@1.0.0"
    ∧ ("@scope/a@1.0.0" : String) ≠ "scope.a@1.0.0" := by
  refine ⟨by decide, by decide⟩

/-- C5 (amended): the document-local SPDX identifier is a pure function of
the package identifier string — `toSpdxID id` is `SPDXRef-Package-` followed
by the substituted name — hence identical across runs for the same
identifier; but it is NOT injective: two package identifiers receive the
same document-local identifier exactly when the substitution (strip one
leading `@`, `/`→`.`, `@`→`-`) collapses them to the same name, which
distinct identifiers can do. -/
theorem c5_spdx_id_collision_iff (a b : String) :
    toSpdxID a = toSpdxID b ↔ spdxLocalName a = spdxLocalName b := by
  constructor
  · intro h
    have hd := congrArg String.data h
    unfold toSpdxID at hd
    rw [strData_append, strData_append] at hd
    exact String.ext (List.append_cancel_left hd)
  · intro h
    unfold toSpdxID
    rw [h]

/-- C7: the relationship type of an emitted SPDX relationship record is
determined solely by the edge's relation kind: `peer` maps to
HAS_PREREQUISITE, `optional` to OPTIONAL_DEPENDENCY_OF, `dev` to
DEV_DEPENDENCY_OF, and every other kind (including `prod` and
`peerOptional`) to DEPENDS_ON. -/
theorem c7_relationship_type_mapping (g : Graph) (node : PNode) (e : Edge)
    (rel : SpdxRelationship) (h : toSpdxRelationship g node e = some rel) :
    (e.etype = "peer" → rel.relationshipType = "HAS_PREREQUISITE")
    ∧ (e.etype = "optional" → rel.relationshipType = "OPTIONAL_DEPENDENCY_OF")
    ∧ (e.etype = "dev" → rel.relationshipType = "DEV_DEPENDENCY_OF")
    ∧ (e.etype ≠ "peer" → e.etype ≠ "optional" → e.etype ≠ "dev" →
        rel.relationshipType = "DEPENDS_ON") := by
  cases ht : e.eto with
  | none => simp [toSpdxRelationship, ht] at h
  | some p =>
    unfold toSpdxRelationship at h
    rw [ht] at h
    have hrel : rel = _ := (Option.some.inj h).symm
    rw [hrel]
    refine ⟨?_, ?_, ?_, ?_⟩
    · intro he; simp [he]
    · intro he; simp [he]
    · intro he; simp [he]
    · intro h1 h2 h3; simp [h1, h2, h3]

/-- C7 witness: a concrete resolved peer edge maps to HAS_PREREQUISITE. -/
theorem c7_relationship_type_mapping_witness :
    (toSpdxRelationship gC6 rootC6 ePeerOk).map (·.relationshipType)
      = some "HAS_PREREQUISITE" := by
  cases hx : toSpdxRelationship gC6 rootC6 ePeerOk with
  | none => exact absurd hx (by decide)
  | some rel =>
    have h := (c7_relationship_type_mapping gC6 rootC6 ePeerOk rel hx).1 (by decide)
    show some rel.relationshipType = some "HAS_PREREQUISITE"
    rw [h]

/-- C9: for every node whose `isLink` flag is set, the emitted package
record's `downloadLocation` is the sentinel NOASSERTION, regardless of the
node's resolved locator (`(node.isLink ? undefined : node.resolved) ||
'NOASSERTION'`). -/
theorem c9_link_download_noassertion (cfg : Cfg) (node : PNode)
    (pt : Option String) (h : node.isLink = true) :
    ((toSpdxItem cfg node pt).1).downloadLocation = "NOASSERTION" := by
  simp [toSpdxItem, jsOr, h]

/-- C9 witness: a link node carrying a non-empty resolved locator still gets
NOASSERTION. -/
theorem c9_link_download_noassertion_witness :
    linkNode.isLink = true
    ∧ linkNode.resolved = some "file:../linked"
    ∧ ((toSpdxItem testCfg linkNode none).1).downloadLocation = "NOASSERTION" :=
  ⟨by decide, by decide,
    c9_link_download_noassertion testCfg linkNode none (by decide)⟩

/-- C8: structural errors are accumulated in a set keyed by the rendered
message line (`errors.add(line)` over a JavaScript `Set`), so the error list
joined into the aggregated failure message holds every line exactly once
(`List.Nodup`), for every graph and configuration — identical lines arising
from several paths collapse to one occurrence. -/
theorem c8_error_set_nodup (g : Graph) (cfg : Cfg) : (errorsOf g cfg).Nodup :=
  travRun_errors_nodup g cfg (travFuel g) (initTravSt g) List.nodup_nil

/-- C1 counterexample: a graph whose only problem is a missing, non-optional
`dev` edge, generated with `omit = ["dev"]`.  The claim says generation must
fail even though the edge's kind is in the omit set; in fact the omit filter
runs before missing-placeholder synthesis (`filterByEdgesTypes` before
`mapEdgesToNodes` in `getChildren`), so the edge is dropped, no error is
recorded, and generation succeeds. -/
theorem c1_omitted_missing_counterexample :
    rootC1.edgesOut = [eDevMissing]
    ∧ eDevMissing.missing = true
    ∧ eDevMissing.optional = false
    ∧ cfgOmitDev.omitTypes.contains eDevMissing.etype = true
    ∧ errorsOf gC1 cfgOmitDev = []
    ∧ isOkE (execSpdx gC1 cfgOmitDev "uuid" "now") = true := by
  refine ⟨by decide, by decide, by decide, by decide, by decide, by decide⟩

/-- C1 (amended): a non-optional missing dependency makes SBOM generation
fail with a missing-dependency error, provided the edge's relation kind is
NOT in the caller-supplied omit set (an omitted edge is filtered out before
missing-dependency detection) and its source node is visited by the
traversal (default workspace configuration, well-formed resolver graph,
non-empty parent pkgid). -/
theorem c1_missing_dep_fails (g : Graph) (cfg : Cfg) (uuid now : String)
    (n : PNode) (e : Edge)
    (hwf : WFGraph g) (hws : cfg.workspacesEnabled = true)
    (hwn : cfg.wsNodes = [])
    (hvis : Child.real n.path ∈ (runSbom g cfg).visited)
    (hn : nodeAt g n.path = some n)
    (he : e ∈ n.edgesOut) (hm : e.missing = true)
    (homit : cfg.omitTypes.contains e.etype = false)
    (ho1 : e.etype ≠ "optional") (ho2 : e.etype ≠ "peerOptional")
    (hpk : n.pkgid ≠ "") :
    execSpdx g cfg uuid now = Except.error (joinEOL (errorsOf g cfg))
    ∧ ContainsStr (joinEOL (errorsOf g cfg)) (missingLine e n.pkgid) := by
  have hline := missing_line_in_errors g cfg hwf hws hwn hvis hn he hm homit
    ho1 ho2 hpk
  have hne := errorsOf_ne_nil_of_mem hline
  exact ⟨execSpdx_error_form g cfg uuid now hne,
    containsStr_of_mem_joinEOL hline⟩

/-- C1 witness: a missing non-omitted prod dependency of the root makes the
run fail with the missing line in the message. -/
theorem c1_missing_dep_fails_witness :
    execSpdx gW testCfg "u" "t" = Except.error (joinEOL (errorsOf gW testCfg))
    ∧ ContainsStr (joinEOL (errorsOf gW testCfg))
        (missingLine eMissingProd "app@1.0.0") :=
  c1_missing_dep_fails gW testCfg "u" "t" rootW eMissingProd
    (by decide) rfl rfl (by decide) (by decide) (by decide) (by decide)
    (by decide) (by decide) (by decide) (by decide)

/-- C2 counterexample: a graph with an invalid resolved edge AND a missing,
non-optional `dev` edge, generated with `omit = ["dev"]`.  Generation fails
(the error set is non-empty), but the aggregated message does not contain
the missing package's identifier `right@1.0.0` — refuting the claim that it
does so for EVERY non-optional missing dependency. -/
theorem c2_message_counterexample :
    eDevMissing ∈ rootC2.edgesOut
    ∧ eDevMissing.missing = true
    ∧ eDevMissing.optional = false
    ∧ errMsgE (execSpdx gC2 cfgOmitDev "u" "t")
        = some "invalid: bad@2.0.0 /app/node_modules/bad"
    ∧ ¬ ContainsStr "invalid: bad@2.0.0 /app/node_modules/bad"
        ("right" ++ "@" ++ "1.0.0") := by
  refine ⟨by decide, by decide, by decide, by decide, by decide⟩

/-- C2 (amended): if the accumulated error set is non-empty, exec throws the
single aggregated failure (the joined error lines) and no document value is
produced; and for every non-optional missing dependency whose edge survives
the omit filter and whose source node is visited, the failure message
contains both the missing package's identifier and the identifier of the
package that required it. -/
theorem c2_atomic_failure (g : Graph) (cfg : Cfg) (uuid now : String)
    (hwf : WFGraph g) (hws : cfg.workspacesEnabled = true)
    (hwn : cfg.wsNodes = []) :
    (errorsOf g cfg ≠ [] →
      execSpdx g cfg uuid now = Except.error (joinEOL (errorsOf g cfg)))
    ∧ (∀ (n : PNode) (e : Edge),
        Child.real n.path ∈ (runSbom g cfg).visited →
        nodeAt g n.path = some n →
        e ∈ n.edgesOut → e.missing = true →
        cfg.omitTypes.contains e.etype = false →
        e.etype ≠ "optional" → e.etype ≠ "peerOptional" →
        n.pkgid ≠ "" →
        ContainsStr (joinEOL (errorsOf g cfg)) (e.ename ++ "@" ++ e.espec)
        ∧ ContainsStr (joinEOL (errorsOf g cfg)) n.pkgid) := by
  refine ⟨fun hne => execSpdx_error_form g cfg uuid now hne, ?_⟩
  intro n e hvis hn he hm homit ho1 ho2 hpk
  have hline := missing_line_in_errors g cfg hwf hws hwn hvis hn he hm homit
    ho1 ho2 hpk
  exact ⟨containsStr_trans (containsStr_of_mem_joinEOL hline)
      (missingLine_contains_id e n.pkgid),
    containsStr_trans (containsStr_of_mem_joinEOL hline)
      (missingLine_contains_parent e n.pkgid)⟩

/-- C2 witness: the missing prod dependency run fails atomically and its
message contains both the missing identifier and the requiring parent. -/
theorem c2_atomic_failure_witness :
    execSpdx gW testCfg "u" "t" = Except.error (joinEOL (errorsOf gW testCfg))
    ∧ ContainsStr (joinEOL (errorsOf gW testCfg)) ("dep" ++ "@" ++ "1.0.0")
    ∧ ContainsStr (joinEOL (errorsOf gW testCfg)) "app@1.0.0" := by
  have h := c2_atomic_failure gW testCfg "u" "t" (by decide) rfl rfl
  have h2 := h.2 rootW eMissingProd (by decide) (by decide) (by decide)
    (by decide) (by decide) (by decide) (by decide) (by decide)
  exact ⟨h.1 (by decide), h2.1, h2.2⟩

/-- C10: the package-type hint affects only the root package record — when a
package type is configured (a non-empty string), the root record carries it
upper-cased as `primaryPackagePurpose`, while every non-root record's
`primaryPackagePurpose` is absent (the `childNodes.map(toSpdxItem)` call
passes the array index as the second argument, so `packageType` destructures
to `undefined` for every child). -/
theorem c10_package_type_root_only (g : Graph) (cfg : Cfg) (u t : String)
    (nodes : List PNode) (r : PNode) (bom : SpdxBom) (after : List PNode)
    (pt : String)
    (hfind : nodes.find? (·.isRoot) = some r)
    (hpt : cfg.packageType = some pt) (hne : pt ≠ "")
    (hout : spdxOutputFull g cfg u t nodes = some (bom, after)) :
    bom.packages.head?.map (·.primaryPackagePurpose) = some (some (jsToUpper pt))
    ∧ bom.packages.tail.all (fun p => p.primaryPackagePurpose.isNone) = true := by
  have hpkgs := (spdxOutputFull_parts g cfg u t nodes r bom after hfind hout).1
  constructor
  · rw [hpkgs, hpt]
    have h1 := toSpdxItem_purpose_some cfg r pt hne
    simp [List.head?_cons, h1]
  · rw [hpkgs]
    simp only [List.tail_cons]
    refine List.all_eq_true.mpr ?_
    intro x hx
    rcases List.mem_map.mp hx with ⟨y, hy, hxy⟩
    rcases List.mem_map.mp hy with ⟨q, _, hyq⟩
    rw [← hxy, ← hyq, toSpdxItem_purpose_none]
    rfl

/-- C10 witness: a two-node document built with `package-type application`. -/
theorem c10_package_type_root_only_witness :
    ((spdxOutputFull gC6 cfgPT "u" "t" [rootC6, depNode]).map
        (fun pr => pr.1.packages.head?.map (·.primaryPackagePurpose)))
      = some (some (some (jsToUpper "application")))
    ∧ ((spdxOutputFull gC6 cfgPT "u" "t" [rootC6, depNode]).map
        (fun pr => pr.1.packages.tail.all (fun p => p.primaryPackagePurpose.isNone)))
      = some true := by
  cases hx : spdxOutputFull gC6 cfgPT "u" "t" [rootC6, depNode] with
  | none => exact absurd hx (by decide)
  | some pr =>
    have h := c10_package_type_root_only gC6 cfgPT "u" "t" [rootC6, depNode]
      rootC6 pr.1 pr.2 "application" (by decide) rfl (by decide) hx
    exact ⟨congrArg some h.1, congrArg some h.2⟩

/-- C4 counterexample: the builder does modify package metadata.
`toSpdxItem` passes `node.package` to the external `normalize-package-data`
in place; with the normalizer's documented effect of filling the generated
`_id` field, the root's package object changes from `generatedId = none` to
`generatedId = some "app@1.0.0"` during document construction. -/
theorem c4_mutation_counterexample :
    rootC4.package.generatedId = none
    ∧ ((spdxOutputFull gC4 cfgNorm "u" "t" [rootC4]).map
        (fun pr => pr.2.map (fun n => n.package.generatedId)))
      = some [some "app@1.0.0"] := by
  refine ⟨by decide, by decide⟩

/-- C4 (amended): the traversal annotates nodes only through the three
run-scoped markers (modelled outside the node objects), and the document
builder's only modification of the externally supplied nodes is the
in-place package-metadata normalization performed by the external
`normalize-package-data` call in `toSpdxItem`; whenever that normalization
is the identity, the builder returns every node object unchanged (root
first, then the non-root nodes). -/
theorem c4_builder_frame (g : Graph) (cfg : Cfg) (u t : String)
    (nodes : List PNode) (r : PNode) (bom : SpdxBom) (after : List PNode)
    (hid : ∀ p, cfg.normalize p = p)
    (hfind : nodes.find? (·.isRoot) = some r)
    (hout : spdxOutputFull g cfg u t nodes = some (bom, after)) :
    after = r :: nodes.filter (fun n => !n.isRoot) := by
  have hafter := (spdxOutputFull_parts g cfg u t nodes r bom after hfind
    hout).2.2.2.2.2.2.2.2.2
  rw [hafter]
  have hhead : (toSpdxItem cfg r cfg.packageType).2 = r := by
    rw [toSpdxItem_node, hid]
  have htail : ((fun x => (x : SpdxPackage × PNode).2)
      ∘ (fun n => toSpdxItem cfg n none)) = id := by
    funext q
    show (toSpdxItem cfg q none).2 = q
    rw [toSpdxItem_node, hid]
  rw [hhead, List.map_map, htail, List.map_id]

/-- C4 witness: with an identity normalizer the builder returns the supplied
node objects unchanged. -/
theorem c4_builder_frame_witness :
    ((spdxOutputFull gC6 testCfg "u" "t" [rootC6, depNode]).map (·.2))
      = some (rootC6 :: [rootC6, depNode].filter (fun n => !n.isRoot)) := by
  cases hx : spdxOutputFull gC6 testCfg "u" "t" [rootC6, depNode] with
  | none => exact absurd hx (by decide)
  | some pr =>
    have h := c4_builder_frame gC6 testCfg "u" "t" [rootC6, depNode] rootC6
      pr.1 pr.2 (fun p => rfl) (by decide) hx
    show some pr.2 = _
    exact congrArg some h

/-- C3: for every node list the SPDX builder accepts under its input
contract (a root is found, and every root-flagged node is the designated
root — the tree has one root), the resulting document satisfies referential
integrity: every relationship's source is the document element or a package
identifier present in the package list and every target is present, the
root package record's identifier is present, and there is exactly one
DESCRIBES relationship, from the document element to the root package's
identifier. -/
theorem c3_referential_integrity (g : Graph) (cfg : Cfg) (u t : String)
    (nodes : List PNode) (r : PNode) (bom : SpdxBom) (after : List PNode)
    (hfind : nodes.find? (·.isRoot) = some r)
    (huniq : ∀ n ∈ nodes, n.isRoot = true → n.pkgid = r.pkgid)
    (hout : spdxOutputFull g cfg u t nodes = some (bom, after)) :
    specReferentialIntegrity bom = true
    ∧ specDescribesOnce bom (toSpdxID r.pkgid) = true
    ∧ (bom.packages.map (·.SPDXID)).contains (toSpdxID r.pkgid) = true := by
  obtain ⟨hpkgs, hrels, _⟩ := spdxOutputFull_parts g cfg u t nodes r bom after
    hfind hout
  have hrmem : r ∈ nodes := List.mem_of_find?_eq_some hfind
  have hmem_ids : ∀ q ∈ nodes, toSpdxID q.pkgid ∈ bom.packages.map (·.SPDXID) := by
    intro q hq
    rw [hpkgs, List.map_cons]
    by_cases hqr : q.isRoot = true
    · have hqp : q.pkgid = r.pkgid := huniq q hq hqr
      rw [hqp, toSpdxItem_SPDXID]
      exact List.mem_cons_self _ _
    · refine List.mem_cons_of_mem _ ?_
      have h1 : q ∈ nodes.filter (fun n => !n.isRoot) :=
        List.mem_filter.mpr ⟨hq, by simp [hqr]⟩
      refine List.mem_map.mpr ⟨(toSpdxItem cfg q none).1, ?_,
        toSpdxItem_SPDXID cfg q none⟩
      exact List.mem_map.mpr ⟨toSpdxItem cfg q none,
        List.mem_map.mpr ⟨q, h1, rfl⟩, rfl⟩
  have hroot_id : (bom.packages.map (·.SPDXID)).contains (toSpdxID r.pkgid)
      = true := by
    have := hmem_ids r hrmem
    simpa using this
  refine ⟨?_, ?_, hroot_id⟩
  · unfold specReferentialIntegrity
    refine List.all_eq_true.mpr ?_
    intro rel hrel2
    rw [hrels] at hrel2
    rcases List.mem_cons.mp hrel2 with hr1 | hr1
    · rw [hr1]
      show ((SPDX_IDENTIFER == SPDX_IDENTIFER
        || (bom.packages.map (·.SPDXID)).contains SPDX_IDENTIFER)
        && (bom.packages.map (·.SPDXID)).contains (toSpdxID r.pkgid)) = true
      rw [hroot_id]
      simp
    · rcases List.mem_flatten.mp hr1 with ⟨sub, hsub, hrelsub⟩
      rcases List.mem_map.mp hsub with ⟨node, hnode, hsubeq⟩
      rw [← hsubeq] at hrelsub
      rcases List.mem_filterMap.mp hrelsub with ⟨e, he, hrel3⟩
      have hfilt : edgeTargetIncluded g nodes e = true :=
        (List.mem_filter.mp he).2
      cases ht : e.eto with
      | none => simp [toSpdxRelationship, ht] at hrel3
      | some p =>
        unfold toSpdxRelationship at hrel3
        rw [ht] at hrel3
        have hrel4 : rel = _ := (Option.some.inj hrel3).symm
        unfold edgeTargetIncluded at hfilt
        rw [ht] at hfilt
        rcases List.any_eq_true.mp hfilt with ⟨m, hm, hmp⟩
        have hmp2 : m.pkgid = pkgidAtPath g p := eq_of_beq hmp
        have hsrc : toSpdxID node.pkgid ∈ bom.packages.map (·.SPDXID) :=
          hmem_ids node hnode
        have htgt : toSpdxID (pkgidAtPath g p) ∈ bom.packages.map (·.SPDXID) := by
          rw [← hmp2]
          exact hmem_ids m hm
        rw [hrel4]
        show ((toSpdxID node.pkgid == SPDX_IDENTIFER
          || (bom.packages.map (·.SPDXID)).contains (toSpdxID node.pkgid))
          && (bom.packages.map (·.SPDXID)).contains (toSpdxID (pkgidAtPath g p)))
          = true
        have hb1 : (bom.packages.map (·.SPDXID)).contains (toSpdxID node.pkgid)
            = true := by simpa using hsrc
        have hb2 : (bom.packages.map (·.SPDXID)).contains
            (toSpdxID (pkgidAtPath g p)) = true := by simpa using htgt
        rw [hb1, hb2]
        simp
  · unfold specDescribesOnce
    rw [hrels]
    have htailnil : ((nodes.map (fun node =>
        (node.edgesOut.filter (edgeTargetIncluded g nodes)).filterMap
          (toSpdxRelationship g node))).flatten).filter
        (fun rel => rel.relationshipType == "DESCRIBES") = [] := by
      refine List.filter_eq_nil_iff.mpr ?_
      intro rel hrel2
      rcases List.mem_flatten.mp hrel2 with ⟨sub, hsub, hrelsub⟩
      rcases List.mem_map.mp hsub with ⟨node, _, hsubeq⟩
      rw [← hsubeq] at hrelsub
      rcases List.mem_filterMap.mp hrelsub with ⟨e, _, hrel3⟩
      have := toSpdxRelationship_ne_describes g node e rel hrel3
      simp [this]
    rw [List.filter_cons_of_pos (by rfl), htailnil]
    simp

/-- C3 witness: a concrete two-node document satisfies the invariants. -/
theorem c3_referential_integrity_witness :
    ((spdxOutputFull gC6 testCfg "u" "t" [rootC6, depNode]).map
        (fun pr => (specReferentialIntegrity pr.1,
          specDescribesOnce pr.1 (toSpdxID rootC6.pkgid),
          (pr.1.packages.map (·.SPDXID)).contains (toSpdxID rootC6.pkgid))))
      = some (true, true, true) := by
  cases hx : spdxOutputFull gC6 testCfg "u" "t" [rootC6, depNode] with
  | none => exact absurd hx (by decide)
  | some pr =>
    have h := c3_referential_integrity gC6 testCfg "u" "t" [rootC6, depNode]
      rootC6 pr.1 pr.2 (by decide) (by decide) hx
    show some (specReferentialIntegrity pr.1,
      specDescribesOnce pr.1 (toSpdxID rootC6.pkgid),
      (pr.1.packages.map (·.SPDXID)).contains (toSpdxID rootC6.pkgid))
      = some (true, true, true)
    rw [h.1, h.2.1, h.2.2]

/-- C6: on a well-formed graph with no missing, invalid or unresolved edges
(acyclicity is not needed: breadth-first traversal with the seen set handles
cycles), running the whole pipeline twice on the same input succeeds both
times and produces SPDX documents whose package lists and relationship
lists are identical element-for-element and in the same order; all document
fields other than the generated document namespace (which embeds the fresh
uuid) and the creation timestamp also coincide. -/
theorem c6_determinism (g : Graph) (cfg : Cfg) (u₁ t₁ u₂ t₂ : String)
    (hclean : cleanEdges g) (hroot : rootFlagged g = true) :
    isOkE (execSpdx g cfg u₁ t₁) = true
    ∧ isOkE (execSpdx g cfg u₂ t₂) = true
    ∧ okPart (·.packages) (execSpdx g cfg u₁ t₁)
        = okPart (·.packages) (execSpdx g cfg u₂ t₂)
    ∧ okPart (·.relationships) (execSpdx g cfg u₁ t₁)
        = okPart (·.relationships) (execSpdx g cfg u₂ t₂)
    ∧ okPart (fun b => (b.spdxVersion, b.dataLicense, b.SPDXID, b.bname,
          b.documentDescribes, b.creationInfo.creators))
        (execSpdx g cfg u₁ t₁)
      = okPart (fun b => (b.spdxVersion, b.dataLicense, b.SPDXID, b.bname,
          b.documentDescribes, b.creationInfo.creators))
        (execSpdx g cfg u₂ t₂) := by
  have hr : ∃ r, nodeAt g g.rootPath = some r ∧ r.isRoot = true := by
    unfold rootFlagged at hroot
    cases hm : nodeAt g g.rootPath with
    | none => rw [hm] at hroot; simp at hroot
    | some r => rw [hm] at hroot; exact ⟨r, rfl, hroot⟩
  obtain ⟨r, hrm, hri⟩ := hr
  have herr := errorsOf_clean g cfg hclean
  obtain ⟨bom1, after1, rest1, hresp1, hfull1, hexec1⟩ :=
    execSpdx_ok g cfg u₁ t₁ herr hrm hri
  obtain ⟨bom2, after2, rest2, hresp2, hfull2, hexec2⟩ :=
    execSpdx_ok g cfg u₂ t₂ herr hrm hri
  have hrest : rest1 = rest2 := by
    have h0 := hresp1.symm.trans hresp2
    exact (List.cons.inj h0).2
  subst hrest
  have hfind : List.find? (fun n => n.isRoot) (r :: rest1) = some r := by
    simp [List.find?_cons, hri]
  obtain ⟨hA1, hB1, hC1, hD1, hE1, hF1, hG1, hH1, hI1, _⟩ :=
    spdxOutputFull_parts g cfg u₁ t₁ (r :: rest1) r bom1 after1 hfind hfull1
  obtain ⟨hA2, hB2, hC2, hD2, hE2, hF2, hG2, hH2, hI2, _⟩ :=
    spdxOutputFull_parts g cfg u₂ t₂ (r :: rest1) r bom2 after2 hfind hfull2
  refine ⟨by rw [hexec1]; rfl, by rw [hexec2]; rfl, ?_, ?_, ?_⟩
  · rw [hexec1, hexec2]
    show some bom1.packages = some bom2.packages
    rw [hA1, hA2]
  · rw [hexec1, hexec2]
    show some bom1.relationships = some bom2.relationships
    rw [hB1, hB2]
  · rw [hexec1, hexec2]
    show some (bom1.spdxVersion, bom1.dataLicense, bom1.SPDXID, bom1.bname,
        bom1.documentDescribes, bom1.creationInfo.creators)
      = some (bom2.spdxVersion, bom2.dataLicense, bom2.SPDXID, bom2.bname,
        bom2.documentDescribes, bom2.creationInfo.creators)
    have hcr1 : bom1.creationInfo.creators
        = ["Tool: npm/cli-" ++ cfg.npmVersion] := by rw [hH1]
    have hcr2 : bom2.creationInfo.creators
        = ["Tool: npm/cli-" ++ cfg.npmVersion] := by rw [hH2]
    rw [hC1, hC2, hD1, hD2, hE1, hE2, hF1, hF2, hI1, hI2, hcr1, hcr2]

/-- C6 witness: the clean two-node graph run twice with different uuids and
timestamps. -/
theorem c6_determinism_witness :
    isOkE (execSpdx gC6 testCfg "uuid-1" "2024-01-01") = true
    ∧ isOkE (execSpdx gC6 testCfg "uuid-2" "2024-06-30") = true
    ∧ okPart (·.packages) (execSpdx gC6 testCfg "uuid-1" "2024-01-01")
        = okPart (·.packages) (execSpdx gC6 testCfg "uuid-2" "2024-06-30")
    ∧ okPart (·.relationships) (execSpdx gC6 testCfg "uuid-1" "2024-01-01")
        = okPart (·.relationships) (execSpdx gC6 testCfg "uuid-2" "2024-06-30")
    ∧ okPart (fun b => (b.spdxVersion, b.dataLicense, b.SPDXID, b.bname,
          b.documentDescribes, b.creationInfo.creators))
        (execSpdx gC6 testCfg "uuid-1" "2024-01-01")
      = okPart (fun b => (b.spdxVersion, b.dataLicense, b.SPDXID, b.bname,
          b.documentDescribes, b.creationInfo.creators))
        (execSpdx gC6 testCfg "uuid-2" "2024-06-30") :=
  c6_determinism gC6 testCfg "uuid-1" "2024-01-01" "uuid-2" "2024-06-30"
    (by decide) (by decide)
